import Mathlib

/-!
Verification of the rakutree repository (a Go TUI front-end over
git worktree / git branch) against its natural-language specification.

The development shallowly embeds the program's pure logic:

* `internal/git/worktree.go` — output parsing (`parseWorktrees`,
  `ListBranches`, `sortBranches`) and the suggestion heuristics
  (`SuggestPaths`, `analyzePathPatterns`, `extractPattern`,
  `applyPattern`, `getDefaultSuggestions`, `SuggestBranchNames`,
  `analyzeBranchPrefixes`).
* `internal/tui/model.go` — the screen state machine (`Model`,
  `Update`, `handleEnter`, `resetMenuItems`).

Conventions of the embedding:

* Go strings are Lean `String`s; all character-level operations are
  carried out on `String.toList`, which agrees with Go's byte-level
  operations on the prefixes/separators used here (all ASCII), and
  UTF-8 byte order agrees with code-point order for the comparisons.
* Subprocess invocations (`git …`) are replaced by an explicit
  environment (`GitEnv`) supplying their results, and every invoked
  effectful git command is recorded in an output trace (`GitCall`).
* Go `map` iteration order is unspecified; the embedding models the
  two tally maps as association lists in first-insertion key order.
  No claim settled here depends on the iteration order.
-/

namespace Rakutree

/-! ## Character-level string toolkit (kernel-friendly)

These model the handful of `strings.*` functions from the Go standard
library that the repository uses.  They operate on `String.toList` so
that concrete instances evaluate by `decide`.
-/

/-- Whitespace set of Go's `unicode.IsSpace` restricted to the
characters that can occur in the repository's inputs (the full Go set
additionally contains the Unicode `Zs` category; no claim depends on
those code points). -/
def isSpaceGo (c : Char) : Bool :=
  c = ' ' || c = '\t' || c = '\n' || c = '\x0b' || c = '\x0c' || c = '\r'
    || c = '\x85' || c = '\xa0'

/-- Go `strings.TrimSpace`. -/
def trimGo (s : String) : String :=
  String.mk (((s.toList.dropWhile isSpaceGo).reverse.dropWhile isSpaceGo).reverse)

/-- Go `strings.HasPrefix`. -/
def hasPrefixGo (s pre : String) : Bool :=
  pre.toList.isPrefixOf s.toList

/-- Go `strings.TrimPrefix`: drop `pre` if it is a prefix, else return
`s` unchanged. -/
def trimPrefixGo (s pre : String) : String :=
  if pre.toList.isPrefixOf s.toList then String.mk (s.toList.drop pre.toList.length) else s

/-- Go `strings.Contains` (substring test). -/
def containsGo (s sub : String) : Bool :=
  s.toList.tails.any (fun t => sub.toList.isPrefixOf t)

/-- Split a character list at every occurrence of `sep`; models Go
`strings.Split` with a one-character separator (empty pieces kept). -/
def chSplit (sep : Char) : List Char → List (List Char)
  | [] => [[]]
  | c :: cs =>
    match chSplit sep cs with
    | [] => if c = sep then [[], []] else [[c]]
    | h :: t => if c = sep then [] :: h :: t else (c :: h) :: t

/-- Go `strings.Split(s, sep)` for a one-character separator. -/
def splitOnChar (sep : Char) (s : String) : List String :=
  (chSplit sep s.toList).map String.mk

/-- First space split: models Go `strings.SplitN(line, " ", 2)`,
returning `none` when the line has no space (the `len(parts) < 2`
case) and otherwise the part before the first space and everything
after it. -/
def breakAtChar (sep : Char) : List Char → Option (List Char × List Char)
  | [] => none
  | c :: cs =>
    if c = sep then some ([], cs)
    else (breakAtChar sep cs).map (fun p => (c :: p.1, p.2))

/-- Go `strings.ReplaceAll` on character lists, fuelled by the input
length so that the recursion is structural (the fuel never runs out:
each step consumes at least one character and one unit of fuel; the
`0, l` case is unreachable from `replaceAllCh`).  On a prefix match
the matched `old` (nonempty at every call site in the repository) is
consumed: `(c :: cs).drop old.length = cs.drop (old.length - 1)`. -/
def replaceAllChAux (old new : List Char) : Nat → List Char → List Char
  | _, [] => []
  | 0, l => l
  | n + 1, c :: cs =>
    if old ≠ [] ∧ old.isPrefixOf (c :: cs) then
      new ++ replaceAllChAux old new n (cs.drop (old.length - 1))
    else
      c :: replaceAllChAux old new n cs

/-- Go `strings.ReplaceAll` on character lists. -/
def replaceAllCh (old new s : List Char) : List Char :=
  replaceAllChAux old new s.length s

/-- Go `strings.ReplaceAll`.  Every call site in the repository passes
a nonempty `old`; for `old = ""` Go would interleave `new` between
characters, a behaviour no embedded code path reaches, so the
embedding returns `s` unchanged there. -/
def replaceAllGo (s old new : String) : String :=
  String.mk (replaceAllCh old.toList new.toList s.toList)

/-- Go `strings.ToLower`, restricted to the ASCII range handled by
`Char.toLower` (the repository only lowercases branch names). -/
def toLowerGo (s : String) : String :=
  String.mk (s.toList.map Char.toLower)

/-- Character membership in a string. -/
def strHasChar (c : Char) (s : String) : Bool :=
  s.toList.any (fun d => d = c)

/-- Lexicographic comparison of character lists.  Go compares strings
byte-wise; UTF-8 byte order coincides with code-point order, so this
is Go's `<` on strings.  (Defined directly so that concrete instances
evaluate in the kernel; `strLtGo_iff_lt` below identifies it with the
`String` order.) -/
def listLtCh : List Char → List Char → Bool
  | [], [] => false
  | [], _ :: _ => true
  | _ :: _, [] => false
  | a :: as, b :: bs => if a = b then listLtCh as bs else decide (a < b)

/-- Go `<` on strings. -/
def strLtGo (a b : String) : Bool :=
  listLtCh a.toList b.toList

/-- Rune-count truncation, modelling the `%.7s` format verb. -/
def takeStr (s : String) (n : Nat) : String :=
  String.mk (s.toList.take n)

/-! ## Git facade: data model and parsers (`internal/git/worktree.go`) -/

/-- `Worktree` record from `internal/git/worktree.go`. -/
structure Worktree where
  Path : String := ""
  Branch : String := ""
  Commit : String := ""
deriving DecidableEq, Repr

/-- The parsing loop of `parseWorktrees` (`worktree.go` lines 32-68):
blank lines flush the accumulated record when it has a path; `worktree `,
`branch ` (stripping `refs/heads/`) and `HEAD ` lines set fields; a
final non-empty record is flushed at the end. -/
def parseWorktreeLines : List String → Worktree → List Worktree
  | [], cur => if cur.Path ≠ "" then [cur] else []
  | raw :: rest, cur =>
    let line := trimGo raw
    if line = "" then
      if cur.Path ≠ "" then cur :: parseWorktreeLines rest {} else parseWorktreeLines rest cur
    else
      match breakAtChar ' ' line.toList with
      | none => parseWorktreeLines rest cur
      | some p =>
        let key := String.mk p.1
        let val := String.mk p.2
        if key = "worktree" then parseWorktreeLines rest { cur with Path := val }
        else if key = "branch" then
          parseWorktreeLines rest { cur with Branch := trimPrefixGo val "refs/heads/" }
        else if key = "HEAD" then parseWorktreeLines rest { cur with Commit := val }
        else parseWorktreeLines rest cur

/-- `parseWorktrees` from `worktree.go`: split the porcelain output on
newlines and run the accumulating loop. -/
def parseWorktrees (output : String) : List Worktree :=
  parseWorktreeLines (splitOnChar '\n' output) {}

/-- The per-line processing of `ListBranches` (`worktree.go` lines
82-91): trim, strip a leading `* ` marker, trim again, strip a
`remotes/origin/` prefix when present. -/
def processBranchLine (raw : String) : String :=
  let line := trimGo raw
  let line2 := trimGo (trimPrefixGo line "* ")
  if hasPrefixGo line2 "remotes/origin/" then trimPrefixGo line2 "remotes/origin/" else line2

/-- The collection loop of `ListBranches` (`worktree.go` lines 80-96):
skip blank lines, process, and keep lines that do not contain `HEAD`
and are nonempty after processing. -/
def collectBranches (lines : List String) : List String :=
  lines.filterMap (fun raw =>
    if trimGo raw = "" then none
    else
      let l := processBranchLine raw
      if containsGo l "HEAD" = false ∧ l ≠ "" then some l else none)

/-- The deduplication loop of `ListBranches` (`worktree.go` lines
98-106): keep the first occurrence of each branch, preserving order.
The Go `seen` map is modelled by the list of already-kept strings. -/
def dedupFirstSeenAux (seen : List String) : List String → List String
  | [] => []
  | x :: xs => if x ∈ seen then dedupFirstSeenAux seen xs else x :: dedupFirstSeenAux (x :: seen) xs

/-- Keep-first deduplication, as in `ListBranches`. -/
def dedupFirstSeen (l : List String) : List String :=
  dedupFirstSeenAux [] l

/-- One inner pass of the double-loop exchange sort used throughout
`worktree.go` (`sortBranches`, `analyzePathPatterns`): scan the tail,
swapping the scanned slot with the pivot whenever `swapIf pivot slot`
holds; returns the final pivot and the rewritten tail. -/
def innerPass (swapIf : α → α → Bool) : α → List α → α × List α
  | x, [] => (x, [])
  | x, y :: ys =>
    if swapIf x y then
      let r := innerPass swapIf y ys
      (r.1, x :: r.2)
    else
      let r := innerPass swapIf x ys
      (r.1, y :: r.2)

/-- The double-loop exchange sort, fuelled by the list length (each
inner pass preserves the length, so the fuel never runs out; the
`0, l` case is unreachable). -/
def exchangeSortAux (swapIf : α → α → Bool) : Nat → List α → List α
  | _, [] => []
  | 0, l => l
  | n + 1, x :: xs =>
    let r := innerPass swapIf x xs
    r.1 :: exchangeSortAux swapIf n r.2

/-- The in-place double-loop sort pattern
`for i … for j … if cond(a[i], a[j]) swap` from `worktree.go`. -/
def exchangeSort (swapIf : α → α → Bool) (l : List α) : List α :=
  exchangeSortAux swapIf l.length l

/-- Swap condition of the priority pass of `sortBranches` (lines
126-132): swap exactly when the earlier slot is `master` and the later
is `main`. -/
def swapPrio (a b : String) : Bool :=
  a = "master" && b = "main"

/-- Swap condition of the alphabetical pass of `sortBranches` (lines
135-141): swap when the earlier slot is lexicographically greater. -/
def swapGtStr (a b : String) : Bool :=
  strLtGo b a

/-- Membership test used to split priority branches from the rest. -/
def isPriorityBranch (b : String) : Bool :=
  b = "main" || b = "master"

/-- `sortBranches` from `worktree.go` (lines 113-146): split into
`main`/`master` and the rest (order preserved, as by the Go loop),
exchange-sort each part, and concatenate priority-first. -/
def sortBranches (branches : List String) : List String :=
  exchangeSort swapPrio (branches.filter isPriorityBranch)
    ++ exchangeSort swapGtStr (branches.filter (fun b => !isPriorityBranch b))

/-- `ListBranches` from `worktree.go` (lines 71-110) applied to the
lines of the `git branch -a` output: collect, deduplicate, sort. -/
def listBranchesLines (lines : List String) : List String :=
  sortBranches (dedupFirstSeen (collectBranches lines))

/-- `ListBranches` applied to the raw `git branch -a` output string. -/
def listBranchesFromOutput (output : String) : List String :=
  listBranchesLines (splitOnChar '\n' output)

/-! ## Suggestion heuristics (`internal/git/worktree.go`) -/

/-- `PathSuggestion` from `worktree.go`. -/
structure PathSuggestion where
  Path : String
  Description : String
  IsCustom : Bool
deriving DecidableEq, Repr

/-- `pathPattern` from `worktree.go`. -/
structure pathPattern where
  Template : String
  Count : Nat
deriving DecidableEq, Repr

/-- `BranchNameSuggestion` from `worktree.go`. -/
structure BranchNameSuggestion where
  Name : String
  Description : String
  IsCustom : Bool
deriving DecidableEq, Repr

/-- Increment the tally for key `k` in an association list, appending
a fresh `(k, 1)` entry when absent.  Models `patternMap[pattern]++` /
`prefixCounts[prefix]++` on a Go map, with keys kept in first-insertion
order (Go map iteration order is unspecified; no settled claim depends
on it). -/
def bumpCount (m : List (String × Nat)) (k : String) : List (String × Nat) :=
  if m.any (fun p => p.1 = k) then
    m.map (fun p => if p.1 = k then (p.1, p.2 + 1) else p)
  else m ++ [(k, 1)]

/-- `extractPattern` from `worktree.go` (lines 281-301): try the four
branch-name variants in order and substitute the first one contained
in the path with the `\x7bbranch\x7d` placeholder; empty string when
none matches. -/
def extractPattern (path branch : String) : String :=
  let normalizedBranch := replaceAllGo branch "/" "-"
  let variations := [branch, normalizedBranch, toLowerGo branch, toLowerGo normalizedBranch]
  match variations.find? (fun v => containsGo path v) with
  | some v => replaceAllGo path v "{branch}"
  | none => ""

/-- Swap condition of the pattern sort in `analyzePathPatterns` (lines
269-275): swap when the later slot has a strictly greater count
(descending order). -/
def swapLtCount (a b : pathPattern) : Bool :=
  decide (a.Count < b.Count)

/-- `analyzePathPatterns` from `worktree.go` (lines 244-278): tally
extracted templates of worktrees with nonempty branch, then sort the
entries by descending count. -/
def analyzePathPatterns (worktrees : List Worktree) : List pathPattern :=
  let m := worktrees.foldl
    (fun m wt =>
      if wt.Branch = "" then m
      else
        let pattern := extractPattern wt.Path wt.Branch
        if pattern = "" then m else bumpCount m pattern)
    []
  exchangeSort swapLtCount (m.map (fun p => { Template := p.1, Count := p.2 }))

/-- `applyPattern` from `worktree.go` (lines 304-310). -/
def applyPattern (pattern : pathPattern) (branch : String) : String :=
  replaceAllGo pattern.Template "{branch}" (replaceAllGo branch "/" "-")

/-- `getDefaultSuggestions` from `worktree.go` (lines 313-341), with
the repository directory name (`getRepoName`, an `os.Getwd` lookup)
passed in as a parameter. -/
def getDefaultSuggestions (branch repoName : String) : List PathSuggestion :=
  let normalizedBranch := replaceAllGo branch "/" "-"
  [ { Path := "../" ++ normalizedBranch,
      Description := "Sibling directory (default)", IsCustom := false },
    { Path := "../worktrees/" ++ normalizedBranch,
      Description := "Organized in worktrees folder", IsCustom := false } ]
  ++ (if repoName ≠ "" then
        [ { Path := "../" ++ repoName ++ "-" ++ normalizedBranch,
            Description := "With repository name prefix", IsCustom := false } ]
      else [])

/-- The learned-pattern accumulation step of `SuggestPaths` (lines
203-213): apply the template, skip empty or already-seen paths.  The
accumulator pairs the suggestions built so far with the `seen` set
(modelled as a list). -/
def addLearnedPath (branch : String) (acc : List PathSuggestion × List String)
    (pattern : pathPattern) : List PathSuggestion × List String :=
  let path := applyPattern pattern branch
  if path ≠ "" ∧ path ∉ acc.2 then
    (acc.1 ++ [{ Path := path,
                 Description := "Learned pattern (" ++ toString pattern.Count ++ " similar)",
                 IsCustom := false }],
     acc.2 ++ [path])
  else acc

/-- The default-suggestion accumulation step of `SuggestPaths` (lines
218-224): skip suggestions whose path was already seen. -/
def addDefaultPath (acc : List PathSuggestion × List String)
    (sug : PathSuggestion) : List PathSuggestion × List String :=
  if sug.Path ∉ acc.2 then (acc.1 ++ [sug], acc.2 ++ [sug.Path]) else acc

/-- The custom-entry sentinel appended by `SuggestPaths` (lines
228-232). -/
def customPathSentinel : PathSuggestion :=
  { Path := "", Description := "Enter custom path...", IsCustom := true }

/-- The learned-pattern phase of `SuggestPaths` (lines 199-214):
skipped entirely unless there are at least two worktrees; the first
worktree is excluded from pattern analysis. -/
def suggestPathsLearned (worktrees : List Worktree) (branch : String) :
    List PathSuggestion × List String :=
  if worktrees.length > 1 then
    (analyzePathPatterns (worktrees.drop 1)).foldl (addLearnedPath branch) ([], [])
  else ([], [])

/-- The suggestion list of `SuggestPaths` before the sentinel is
appended (lines 199-225): learned patterns, topped up with the
defaults when fewer than 3 suggestions were produced. -/
def suggestPathsFront (worktrees : List Worktree) (repoName branch : String) :
    List PathSuggestion :=
  let acc1 := suggestPathsLearned worktrees branch
  let acc2 :=
    if acc1.1.length < 3 then
      (getDefaultSuggestions branch repoName).foldl addDefaultPath acc1
    else acc1
  acc2.1

/-- `SuggestPaths` from `worktree.go` (lines 189-235), with the
worktree listing (`ListWorktrees` result) and the repository name
passed in: learn templates from all worktrees after the first, apply
them, top up with defaults when fewer than 3 suggestions were
produced, and append the custom-entry sentinel. -/
def suggestPathsWith (worktrees : List Worktree) (repoName branch : String) :
    List PathSuggestion :=
  suggestPathsFront worktrees repoName branch ++ [customPathSentinel]

/-- The first-slash prefix used by `analyzeBranchPrefixes` (lines
429-432): Go computes `strings.Index(branch, "/")` and keeps
`branch[:idx+1]` only when `idx > 0`, i.e. when the branch contains a
slash that is not its first character.  (Byte vs. character indices
agree here because the prefix up to and including the first `/` is the
same string either way, and the index is zero in one measure exactly
when it is zero in the other.) -/
def branchPrefixOf (branch : String) : Option String :=
  match branch.toList.findIdx? (fun c => c = '/') with
  | some idx => if idx > 0 then some (String.mk (branch.toList.take (idx + 1))) else none
  | none => none

/-- The per-branch tally step of `analyzeBranchPrefixes` (lines
422-433): skip `main`/`master`, tally the first-slash prefix when the
slash sits at a positive index. -/
def branchPrefixStep (m : List (String × Nat)) (branch : String) : List (String × Nat) :=
  if branch = "main" ∨ branch = "master" then m
  else
    match branchPrefixOf branch with
    | some pre => bumpCount m pre
    | none => m

/-- `analyzeBranchPrefixes` from `worktree.go` (lines 419-436): tally
first-slash prefixes of branches other than `main`/`master`. -/
def analyzeBranchPrefixes (branches : List String) : List (String × Nat) :=
  branches.foldl branchPrefixStep []

/-- The learned suggestion built from a tally entry (lines 376-380). -/
def mkLearnedSuggestion (pc : String × Nat) : BranchNameSuggestion :=
  { Name := pc.1,
    Description := "Learned pattern (" ++ toString pc.2 ++ " branches)",
    IsCustom := false }

/-- The learned-prefix accumulation step of `SuggestBranchNames`
(lines 373-382): keep prefixes used at least twice and not yet seen. -/
def addLearnedPrefix (acc : List BranchNameSuggestion × List String)
    (pc : String × Nat) : List BranchNameSuggestion × List String :=
  if pc.2 ≥ 2 ∧ pc.1 ∉ acc.2 then
    (acc.1 ++ [mkLearnedSuggestion pc], acc.2 ++ [pc.1])
  else acc

/-- The fixed conventional prefixes of `SuggestBranchNames` (lines
385-395). -/
def commonPrefixes : List (String × String) :=
  [ ("feature/", "New feature"), ("bugfix/", "Bug fix"), ("hotfix/", "Urgent fix"),
    ("release/", "Release branch"), ("refactor/", "Code refactoring"),
    ("chore/", "Maintenance task") ]

/-- The conventional suggestion built from a fixed prefix entry
(lines 400-404). -/
def mkCommonSuggestion (cp : String × String) : BranchNameSuggestion :=
  { Name := cp.1, Description := cp.2, IsCustom := false }

/-- The conventional-prefix accumulation step of `SuggestBranchNames`
(lines 397-406): append prefixes not already seen. -/
def addCommonPrefix (acc : List BranchNameSuggestion × List String)
    (cp : String × String) : List BranchNameSuggestion × List String :=
  if cp.1 ∉ acc.2 then
    (acc.1 ++ [mkCommonSuggestion cp], acc.2 ++ [cp.1])
  else acc

/-- The custom-entry sentinel appended by `SuggestBranchNames` (lines
409-413). -/
def customNameSentinel : BranchNameSuggestion :=
  { Name := "", Description := "Enter custom branch name...", IsCustom := true }

/-- The learned-prefix phase of `SuggestBranchNames` (lines 370-382). -/
def suggestNamesLearned (branches : List String) :
    List BranchNameSuggestion × List String :=
  (analyzeBranchPrefixes branches).foldl addLearnedPrefix ([], [])

/-- The suggestion list of `SuggestBranchNames` before the sentinel is
appended (lines 366-406). -/
def suggestBranchNamesFront (branches : List String) : List BranchNameSuggestion :=
  (commonPrefixes.foldl addCommonPrefix (suggestNamesLearned branches)).1

/-- `SuggestBranchNames` from `worktree.go` (lines 360-416), with the
branch listing (`ListBranches` result) passed in. -/
def suggestBranchNamesWith (branches : List String) : List BranchNameSuggestion :=
  suggestBranchNamesFront branches ++ [customNameSentinel]

/-- Tally lookup in the association-list model of the Go count maps
(`0` when absent). -/
def lookupTally (m : List (String × Nat)) (k : String) : Nat :=
  match m.find? (fun p => p.1 = k) with
  | some p => p.2
  | none => 0

/-- The keys of a tally. -/
def tallyKeys (m : List (String × Nat)) : List String :=
  m.map Prod.fst

/-! ## Screen state machine (`internal/tui/model.go`)

The TUI `Model` and its `Update`/`handleEnter` functions are embedded
with the subprocess results supplied by a `GitEnv` and every effectful
git invocation recorded in a `List GitCall` trace.  The third-party
bubbles widgets are modelled just deeply enough for the settled
claims: the list widget is items + cursor + title + filtering flag
(its key handling only moves the cursor), the text input is its value
(a single-rune key press appends the rune, which is how typing enters
text). -/

/-- `viewState` from `model.go`. -/
inductive ViewState
  | menuView
  | listView
  | branchModeSelectView
  | addView
  | newBranchBaseView
  | branchNameSuggestionView
  | newBranchNameView
  | pathSelectView
  | customPathView
  | removeView
deriving DecidableEq, Repr

/-- `item` from `model.go`. -/
structure Item where
  title : String := ""
  desc : String := ""
deriving DecidableEq, Repr

/-- The modelled fields of the bubbles list widget. -/
structure ListState where
  items : List Item := []
  cursor : Nat := 0
  title : String := ""
  filteringEnabled : Bool := false
deriving DecidableEq, Repr

/-- The modelled field of a bubbles text input. -/
structure TextInputState where
  value : String := ""
  placeholder : String := ""
  focused : Bool := false
deriving DecidableEq, Repr

/-- `Model` from `model.go` (second revision, with the new-branch
wizard). -/
structure Model where
  state : ViewState := .menuView
  list : ListState := {}
  pathInput : TextInputState := {}
  branchNameInput : TextInputState := {}
  worktrees : List Worktree := []
  branches : List String := []
  selectedBranch : String := ""
  baseBranch : String := ""
  selectedPrefix : String := ""
  isNewBranch : Bool := false
  pathSuggestions : List PathSuggestion := []
  branchNameSuggestions : List BranchNameSuggestion := []
  err : Option String := none
  message : String := ""
  quitting : Bool := false
  width : Nat := 0
  height : Nat := 0
deriving DecidableEq, Repr

/-- Results of the git subprocess invocations, supplied as data:
`Except` carries a query failure's message, the `…Err` fields give
`some errorMessage` when the corresponding mutation fails, and
`absPath` models `filepath.Abs` (`none` on failure). -/
structure GitEnv where
  listWorktreesRes : Except String (List Worktree)
  listBranchesRes : Except String (List String)
  repoName : String
  addWorktreeErr : String → String → Option String
  addWorktreeWithNewBranchErr : String → String → String → Option String
  removeWorktreeErr : String → Option String
  absPath : String → Option String

/-- Trace entries: the git subprocesses an update step invokes. -/
inductive GitCall
  | listWorktreesCall
  | listBranchesCall
  | addWorktreeCall (path branch : String)
  | addWorktreeWithNewBranchCall (path newBranch baseBranch : String)
  | removeWorktreeCall (path : String)
deriving DecidableEq, Repr

/-- `SuggestPaths` as seen from the TUI: `ListWorktrees` then the pure
suggestion computation. -/
def suggestPathsEnv (env : GitEnv) (branch : String) : Except String (List PathSuggestion) :=
  env.listWorktreesRes.map (fun ws => suggestPathsWith ws env.repoName branch)

/-- `SuggestBranchNames` as seen from the TUI: `ListBranches` then the
pure suggestion computation. -/
def suggestBranchNamesEnv (env : GitEnv) : Except String (List BranchNameSuggestion) :=
  env.listBranchesRes.map suggestBranchNamesWith

/-- Messages delivered to `Update`: a key press (identified by its
`tea.KeyMsg` string form, as matched by the Go code) or a window
resize. -/
inductive Msg
  | key (s : String)
  | windowSize (w h : Nat)

/-- `list.SelectedItem()`: the item under the cursor, `nil` when out
of range. -/
def selectedItem (l : ListState) : Option Item :=
  l.items.get? l.cursor

/-- The four standard menu entries (`NewModel` / `resetMenuItems`). -/
def menuItems : List Item :=
  [ { title := "List Worktrees", desc := "View all existing worktrees" },
    { title := "Add Worktree", desc := "Create a new worktree" },
    { title := "Remove Worktree", desc := "Delete an existing worktree" },
    { title := "Quit", desc := "Exit the application" } ]

/-- `resetMenuItems` from `model.go` (second revision, lines 937-947):
restore the four standard entries, disable filtering, restore the
title. -/
def resetMenuItems (m : Model) : Model :=
  { m with list := { m.list with items := menuItems, filteringEnabled := false,
                                 title := "Git Worktree Manager" } }

/-- Model of the bubbles list key handling: arrow/vi keys move the
cursor; everything else leaves the modelled fields unchanged.  No
settled claim depends on the widget's internals. -/
def listUpdate (msg : Msg) (l : ListState) : ListState :=
  match msg with
  | .key s =>
    if s = "up" ∨ s = "k" then { l with cursor := l.cursor - 1 }
    else if s = "down" ∨ s = "j" then
      { l with cursor := min (l.cursor + 1) (l.items.length - 1) }
    else l
  | _ => l

/-- Model of the bubbles text input key handling: a single-rune key is
inserted at the cursor (kept at the end of the value), backspace
deletes the last rune, other messages leave the value unchanged. -/
def textInputUpdate (msg : Msg) (t : TextInputState) : TextInputState :=
  match msg with
  | .key s =>
    if s.length = 1 then { t with value := t.value ++ s }
    else if s = "backspace" then { t with value := String.mk t.value.toList.dropLast }
    else t
  | _ => t

/-- Worktree list item rendering used by the "List Worktrees" branch
of `handleEnter` (branch shown as `detached` when empty, commit
truncated to 7 runes by the `%.7s` verb). -/
def listWorktreeItem (wt : Worktree) : Item :=
  { title := wt.Path,
    desc := "Branch: " ++ (if wt.Branch = "" then "detached" else wt.Branch)
              ++ " | Commit: " ++ takeStr wt.Commit 7 }

/-- Worktree list item rendering used by the "Remove Worktree" branch
of `handleEnter`. -/
def removeWorktreeItem (wt : Worktree) : Item :=
  { title := wt.Path, desc := "Branch: " ++ (if wt.Branch = "" then "detached" else wt.Branch) }

/-- Path-suggestion list item rendering shared by the
`newBranchNameView` and `addView` branches of `handleEnter`: custom
entries get a fixed title, non-custom entries get the absolute path
appended to the description when `filepath.Abs` succeeds. -/
def pathSuggestionItem (env : GitEnv) (sug : PathSuggestion) : Item :=
  if sug.IsCustom then { title := "✏️  Custom path...", desc := sug.Description }
  else
    { title := sug.Path,
      desc := match env.absPath sug.Path with
              | some ap => sug.Description ++ " → " ++ ap
              | none => sug.Description }

/-- Branch-name-suggestion list item rendering of the
`newBranchBaseView` branch of `handleEnter`. -/
def nameSuggestionItem (sug : BranchNameSuggestion) : Item :=
  if sug.IsCustom then { title := "✏️  Custom name...", desc := sug.Description }
  else { title := sug.Name, desc := sug.Description }

/-- `handleEnter` from `model.go` (second revision, lines 563-935),
returning the updated model and the git invocations performed. -/
def handleEnter (env : GitEnv) (m : Model) : Model × List GitCall :=
  match m.state with
  | .menuView =>
    match selectedItem m.list with
    | none => (m, [])
    | some sel =>
      if sel.title = "List Worktrees" then
        match env.listWorktreesRes with
        | .error e => ({ m with state := .menuView, err := some e }, [.listWorktreesCall])
        | .ok worktrees =>
          ({ m with state := .listView, worktrees := worktrees,
                    list := { m.list with items := worktrees.map listWorktreeItem,
                                          title := "Worktrees (press ESC to go back)" } },
           [.listWorktreesCall])
      else if sel.title = "Add Worktree" then
        ({ m with list := { m.list with
                    items := [ { title := "Use existing branch",
                                 desc := "Select from existing branches" },
                               { title := "Create new branch",
                                 desc := "Create a new branch and worktree" } ],
                    title := "Choose branch mode (press ESC to cancel)" },
                  state := .branchModeSelectView }, [])
      else if sel.title = "Remove Worktree" then
        match env.listWorktreesRes with
        | .error e => ({ m with err := some e }, [.listWorktreesCall])
        | .ok worktrees =>
          if worktrees.length > 1 then
            let wts := worktrees.drop 1
            ({ m with worktrees := wts,
                      list := { m.list with items := wts.map removeWorktreeItem,
                                            title := "Select worktree to remove (press ESC to cancel)" },
                      state := .removeView }, [.listWorktreesCall])
          else
            ({ m with message := "No additional worktrees to remove" }, [.listWorktreesCall])
      else if sel.title = "Quit" then
        ({ m with quitting := true }, [])
      else (m, [])
  | .listView => (m, [])
  | .branchModeSelectView =>
    match selectedItem m.list with
    | none => (m, [])
    | some sel =>
      if sel.title = "Use existing branch" then
        match env.listBranchesRes with
        | .error e =>
          ({ m with isNewBranch := false, err := some e, state := .menuView },
           [.listBranchesCall])
        | .ok branches =>
          ({ m with isNewBranch := false, branches := branches,
                    list := { m.list with
                      items := branches.map (fun b => { title := b, desc := "" }),
                      filteringEnabled := true,
                      title := "Select an existing branch (type to filter, ESC to cancel)" },
                    state := .addView }, [.listBranchesCall])
      else if sel.title = "Create new branch" then
        match env.listBranchesRes with
        | .error e =>
          ({ m with isNewBranch := true, err := some e, state := .menuView },
           [.listBranchesCall])
        | .ok branches =>
          ({ m with isNewBranch := true, branches := branches,
                    list := { m.list with
                      items := branches.map
                        (fun b => { title := b, desc := "Base branch for new branch" }),
                      filteringEnabled := true,
                      title := "Select base branch (type to filter, ESC to cancel)" },
                    state := .newBranchBaseView }, [.listBranchesCall])
      else (m, [])
  | .newBranchBaseView =>
    match selectedItem m.list with
    | none => (m, [])
    | some sel =>
      match suggestBranchNamesEnv env with
      | .error e =>
        (resetMenuItems { m with baseBranch := sel.title, err := some e, state := .menuView },
         [.listBranchesCall])
      | .ok suggestions =>
        ({ m with baseBranch := sel.title, branchNameSuggestions := suggestions,
                  list := { m.list with items := suggestions.map nameSuggestionItem,
                                        filteringEnabled := false,
                                        title := "Select branch name pattern (ESC to cancel)" },
                  state := .branchNameSuggestionView }, [.listBranchesCall])
  | .branchNameSuggestionView =>
    match selectedItem m.list with
    | none => (m, [])
    | some sel =>
      match m.list.items.findIdx? (fun it => it = sel) with
      | none => (m, [])
      | some idx =>
        if h : idx < m.branchNameSuggestions.length then
          let suggestion := m.branchNameSuggestions.get ⟨idx, h⟩
          ({ m with selectedPrefix := suggestion.Name,
                    branchNameInput := { m.branchNameInput with
                      value := suggestion.Name, focused := true },
                    state := .newBranchNameView }, [])
        else (m, [])
  | .newBranchNameView =>
    let newBranchName := m.branchNameInput.value
    if newBranchName = "" then
      (resetMenuItems { m with err := some "branch name cannot be empty", state := .menuView },
       [])
    else
      match suggestPathsEnv env newBranchName with
      | .error e =>
        (resetMenuItems { m with selectedBranch := newBranchName, err := some e,
                                 state := .menuView }, [.listWorktreesCall])
      | .ok suggestions =>
        ({ m with selectedBranch := newBranchName, pathSuggestions := suggestions,
                  list := { m.list with items := suggestions.map (pathSuggestionItem env),
                                        title := "Select path for new branch \x27"
                                                   ++ newBranchName ++ "\x27 (ESC to cancel)" },
                  state := .pathSelectView }, [.listWorktreesCall])
  | .addView =>
    match selectedItem m.list with
    | none => (m, [])
    | some sel =>
      match suggestPathsEnv env sel.title with
      | .error e =>
        ({ m with selectedBranch := sel.title, err := some e, state := .menuView },
         [.listWorktreesCall])
      | .ok suggestions =>
        ({ m with selectedBranch := sel.title, pathSuggestions := suggestions,
                  list := { m.list with items := suggestions.map (pathSuggestionItem env),
                                        title := "Select path for \x27" ++ sel.title
                                                   ++ "\x27 (ESC to cancel)" },
                  state := .pathSelectView }, [.listWorktreesCall])
  | .pathSelectView =>
    match selectedItem m.list with
    | none => (m, [])
    | some sel =>
      match m.list.items.findIdx? (fun it => it = sel) with
      | none => (m, [])
      | some idx =>
        if h : idx < m.pathSuggestions.length then
          let suggestion := m.pathSuggestions.get ⟨idx, h⟩
          if suggestion.IsCustom then
            ({ m with pathInput := { m.pathInput with
                                     value := "",
                                     placeholder := "Enter custom path (e.g., ../my-worktree)" },
                      state := .customPathView }, [])
          else if m.isNewBranch then
            let m2 :=
              match env.addWorktreeWithNewBranchErr suggestion.Path m.selectedBranch m.baseBranch with
              | some e => { m with err := some e }
              | none =>
                { m with message := "Successfully created branch \x27" ++ m.selectedBranch
                           ++ "\x27 and worktree at " ++ suggestion.Path }
            (resetMenuItems { m2 with state := .menuView },
             [.addWorktreeWithNewBranchCall suggestion.Path m.selectedBranch m.baseBranch])
          else
            let m2 :=
              match env.addWorktreeErr suggestion.Path m.selectedBranch with
              | some e => { m with err := some e }
              | none =>
                { m with message := "Successfully added worktree at " ++ suggestion.Path }
            (resetMenuItems { m2 with state := .menuView },
             [.addWorktreeCall suggestion.Path m.selectedBranch])
        else (m, [])
  | .customPathView =>
    let path := m.pathInput.value
    if path = "" then
      (resetMenuItems { m with err := some "path cannot be empty", state := .menuView }, [])
    else if m.isNewBranch then
      let m2 :=
        match env.addWorktreeWithNewBranchErr path m.selectedBranch m.baseBranch with
        | some e => { m with err := some e }
        | none =>
          { m with message := "Successfully created branch \x27" ++ m.selectedBranch
                     ++ "\x27 and worktree at " ++ path }
      (resetMenuItems { m2 with pathInput := { m2.pathInput with value := "" },
                                state := .menuView },
       [.addWorktreeWithNewBranchCall path m.selectedBranch m.baseBranch])
    else
      let m2 :=
        match env.addWorktreeErr path m.selectedBranch with
        | some e => { m with err := some e }
        | none => { m with message := "Successfully added worktree at " ++ path }
      (resetMenuItems { m2 with pathInput := { m2.pathInput with value := "" },
                                state := .menuView },
       [.addWorktreeCall path m.selectedBranch])
  | .removeView =>
    match selectedItem m.list with
    | none => (m, [])
    | some sel =>
      let m2 :=
        match env.removeWorktreeErr sel.title with
        | some e => { m with err := some e }
        | none => { m with message := "Successfully removed worktree at " ++ sel.title }
      (resetMenuItems { m2 with state := .menuView }, [.removeWorktreeCall sel.title])

/-- `Update` from `model.go` (second revision, lines 508-561):
`ctrl+c`/`q` quit from the menu and otherwise return to it clearing
error and message; `esc` returns to the menu (resetting the menu list)
and is swallowed on the menu; `enter` dispatches to `handleEnter`; any
other key reaches the widget of the current state. -/
def update (env : GitEnv) (msg : Msg) (m : Model) : Model × List GitCall :=
  match msg with
  | .windowSize w h => ({ m with width := w, height := h }, [])
  | .key s =>
    if s = "ctrl+c" ∨ s = "q" then
      if m.state = .menuView then ({ m with quitting := true }, [])
      else ({ m with state := .menuView, err := none, message := "" }, [])
    else if s = "esc" then
      if m.state ≠ .menuView then
        (resetMenuItems { m with state := .menuView, err := none, message := "" }, [])
      else (m, [])
    else if s = "enter" then handleEnter env m
    else
      match m.state with
      | .newBranchNameView =>
        ({ m with branchNameInput := textInputUpdate msg m.branchNameInput }, [])
      | .customPathView => ({ m with pathInput := textInputUpdate msg m.pathInput }, [])
      | _ => ({ m with list := listUpdate msg m.list }, [])

/-- Fold a sequence of key presses through `update`, keeping the
model. -/
def stepKeys (env : GitEnv) (m : Model) (ks : List String) : Model :=
  ks.foldl (fun m s => (update env (.key s) m).1) m

/-- A trivially benign environment, used for concrete instances. -/
def env0 : GitEnv :=
  { listWorktreesRes := .ok [], listBranchesRes := .ok [], repoName := "",
    addWorktreeErr := fun _ _ => none, addWorktreeWithNewBranchErr := fun _ _ _ => none,
    removeWorktreeErr := fun _ => none, absPath := fun _ => none }

/-- An environment whose worktree listing holds only the primary
worktree. -/
def envOneWorktree : GitEnv :=
  { env0 with listWorktreesRes := .ok [{ Path := "/repo", Branch := "main", Commit := "abc" }] }

/-- A mid-wizard model: the branch-selection screen with accumulated
wizard fields, used in concrete instances. -/
def wizardModel : Model :=
  { state := .addView, selectedBranch := "feature-x", baseBranch := "main",
    selectedPrefix := "feature/", isNewBranch := true }

/-- A model typing into the custom-path input, used in concrete
instances. -/
def typingModel : Model :=
  { state := .customPathView, pathInput := { value := "ab" } }

/-- The menu with the cursor on "Remove Worktree", used in concrete
instances. -/
def menuRemoveModel : Model :=
  { state := .menuView, list := { items := menuItems, cursor := 2 } }

/-- The number of branches in `bs` that are neither `main` nor
`master` and whose first-slash prefix is `p`.  This is the tally that
`analyzeBranchPrefixes` accumulates for `p`. -/
def countPrefixOcc (p : String) (bs : List String) : Nat :=
  bs.countP (fun b => decide (¬(b = "main" ∨ b = "master") ∧ branchPrefixOf b = some p))

/-- The specification's description of a `ListBranches` result, stated
against the embedding: the deduplication keeps exactly the collected
branches, without duplicates, preserving input order (sublist); the
final list is a permutation of the deduplicated branches and splits
into a sorted `main`/`master` segment followed by the remaining
branches in ascending case-sensitive lexicographic order. -/
def listBranchesSpecProp (lines : List String) : Prop :=
  ((dedupFirstSeen (collectBranches lines)).Nodup
    ∧ (dedupFirstSeen (collectBranches lines)).Sublist (collectBranches lines)
    ∧ ∀ x, x ∈ dedupFirstSeen (collectBranches lines) ↔ x ∈ collectBranches lines)
  ∧ (listBranchesLines lines).Perm (dedupFirstSeen (collectBranches lines))
  ∧ ∃ p o, listBranchesLines lines = p ++ o
      ∧ (∀ x ∈ p, x = "main" ∨ x = "master")
      ∧ List.Sorted (fun a b => a ≤ b) p
      ∧ (∀ x ∈ o, ¬(x = "main" ∨ x = "master"))
      ∧ List.Sorted (fun a b => a ≤ b) o

/-! ## Helper lemmas: deduplication -/

theorem dedupFirstSeenAux_sublist (l : List String) :
    ∀ seen, (dedupFirstSeenAux seen l).Sublist l := by
  induction l with
  | nil => intro seen; simp [dedupFirstSeenAux]
  | cons x xs ih =>
    intro seen
    by_cases hx : x ∈ seen
    · simpa [dedupFirstSeenAux, hx] using (ih seen).cons x
    · simpa [dedupFirstSeenAux, hx] using (ih (x :: seen)).cons₂ x

theorem mem_dedupFirstSeenAux (l : List String) :
    ∀ seen y, y ∈ dedupFirstSeenAux seen l ↔ y ∈ l ∧ y ∉ seen := by
  induction l with
  | nil => intro seen y; simp [dedupFirstSeenAux]
  | cons x xs ih =>
    intro seen y
    by_cases hx : x ∈ seen
    · simp only [dedupFirstSeenAux, if_pos hx, ih, List.mem_cons]
      constructor
      · rintro ⟨hy, hns⟩; exact ⟨Or.inr hy, hns⟩
      · rintro ⟨hy | hy, hns⟩
        · exact absurd (hy ▸ hx) hns
        · exact ⟨hy, hns⟩
    · simp only [dedupFirstSeenAux, if_neg hx, List.mem_cons, ih, List.mem_cons]
      constructor
      · rintro (rfl | ⟨hy, hns⟩)
        · exact ⟨Or.inl rfl, hx⟩
        · exact ⟨Or.inr hy, fun hc => hns (Or.inr hc)⟩
      · rintro ⟨rfl | hy, hns⟩
        · exact Or.inl rfl
        · by_cases hyx : y = x
          · exact Or.inl hyx
          · exact Or.inr ⟨hy, by simp [hyx, hns]⟩

theorem dedupFirstSeenAux_nodup (l : List String) :
    ∀ seen, (dedupFirstSeenAux seen l).Nodup := by
  induction l with
  | nil => intro seen; simp [dedupFirstSeenAux]
  | cons x xs ih =>
    intro seen
    by_cases hx : x ∈ seen
    · simpa [dedupFirstSeenAux, hx] using ih seen
    · simp only [dedupFirstSeenAux, if_neg hx, List.nodup_cons]
      refine ⟨fun hc => ?_, ih (x :: seen)⟩
      exact ((mem_dedupFirstSeenAux xs (x :: seen) x).mp hc).2 (List.mem_cons_self x seen)

theorem dedupFirstSeen_sublist (l : List String) : (dedupFirstSeen l).Sublist l :=
  dedupFirstSeenAux_sublist l []

theorem mem_dedupFirstSeen (l : List String) (y : String) :
    y ∈ dedupFirstSeen l ↔ y ∈ l := by
  simp [dedupFirstSeen, mem_dedupFirstSeenAux]

theorem dedupFirstSeen_nodup (l : List String) : (dedupFirstSeen l).Nodup :=
  dedupFirstSeenAux_nodup l []

/-! ## Helper lemmas: the exchange sort -/

theorem innerPass_cons_pos (swapIf : α → α → Bool) (x y : α) (ys : List α)
    (h : swapIf x y = true) :
    innerPass swapIf x (y :: ys)
      = ((innerPass swapIf y ys).1, x :: (innerPass swapIf y ys).2) := by
  simp [innerPass, h]

theorem innerPass_cons_neg (swapIf : α → α → Bool) (x y : α) (ys : List α)
    (h : swapIf x y = false) :
    innerPass swapIf x (y :: ys)
      = ((innerPass swapIf x ys).1, y :: (innerPass swapIf x ys).2) := by
  simp [innerPass, h]

theorem innerPass_perm (swapIf : α → α → Bool) (x : α) (l : List α) :
    ((innerPass swapIf x l).1 :: (innerPass swapIf x l).2).Perm (x :: l) := by
  induction l generalizing x with
  | nil => simp [innerPass]
  | cons y ys ih =>
    cases hs : swapIf x y with
    | true =>
      rw [innerPass_cons_pos swapIf x y ys hs]
      have s1 : List.Perm ((innerPass swapIf y ys).1 :: x :: (innerPass swapIf y ys).2)
          (x :: (innerPass swapIf y ys).1 :: (innerPass swapIf y ys).2) :=
        List.Perm.swap _ _ _
      exact s1.trans ((ih y).cons x)
    | false =>
      rw [innerPass_cons_neg swapIf x y ys hs]
      have s1 : List.Perm ((innerPass swapIf x ys).1 :: y :: (innerPass swapIf x ys).2)
          (y :: (innerPass swapIf x ys).1 :: (innerPass swapIf x ys).2) :=
        List.Perm.swap _ _ _
      have s3 : List.Perm (y :: x :: ys) (x :: y :: ys) := List.Perm.swap _ _ _
      exact s1.trans (((ih x).cons y).trans s3)

theorem innerPass_length (swapIf : α → α → Bool) (x : α) (l : List α) :
    (innerPass swapIf x l).2.length = l.length := by
  have h := (innerPass_perm swapIf x l).length_eq
  simpa using h

theorem exchangeSortAux_perm (swapIf : α → α → Bool) :
    ∀ n l, l.length ≤ n → (exchangeSortAux swapIf n l).Perm l := by
  intro n
  induction n with
  | zero =>
    intro l hl
    have : l = [] := List.length_eq_zero.mp (Nat.le_zero.mp hl)
    subst this; simp [exchangeSortAux]
  | succ n ih =>
    intro l hl
    match l with
    | [] => simp [exchangeSortAux]
    | x :: xs =>
      simp only [exchangeSortAux]
      have hlen : (innerPass swapIf x xs).2.length ≤ n := by
        rw [innerPass_length]; simpa using hl
      exact ((ih _ hlen).cons _).trans (innerPass_perm swapIf x xs)

theorem exchangeSort_perm (swapIf : α → α → Bool) (l : List α) :
    (exchangeSort swapIf l).Perm l :=
  exchangeSortAux_perm swapIf l.length l (Nat.le_refl _)

/-! ## Helper lemmas: the string order bridge -/

theorem listLtCh_iff_lt (as bs : List Char) : listLtCh as bs = true ↔ List.lt as bs := by
  induction as generalizing bs with
  | nil =>
    cases bs with
    | nil =>
      apply iff_of_false
      · simp [listLtCh]
      · intro h; cases h
    | cons b bs =>
      apply iff_of_true
      · rfl
      · exact List.lt.nil b bs
  | cons a as ih =>
    cases bs with
    | nil =>
      apply iff_of_false
      · simp [listLtCh]
      · intro h; cases h
    | cons b bs =>
      have hunf : listLtCh (a :: as) (b :: bs)
          = if a = b then listLtCh as bs else decide (a < b) := rfl
      by_cases hab : a = b
      · subst hab
        rw [hunf, if_pos rfl, ih]
        constructor
        · intro h; exact List.lt.tail (lt_irrefl a) (lt_irrefl a) h
        · intro h
          cases h with
          | head as bs h => exact absurd h (lt_irrefl a)
          | tail h1 h2 h => exact h
      · rw [hunf, if_neg hab, decide_eq_true_eq]
        constructor
        · intro h; exact List.lt.head _ _ h
        · intro h
          cases h with
          | head as bs h => exact h
          | tail h1 h2 h => exact absurd (le_antisymm (not_lt.mp h2) (not_lt.mp h1)) hab

theorem strLtGo_iff_lt (a b : String) : strLtGo a b = true ↔ a < b := by
  rw [String.lt_iff_toList_lt]
  show listLtCh a.toList b.toList = true ↔ List.Lex (fun c d => c < d) a.toList b.toList
  rw [← List.lt_iff_lex_lt]
  exact listLtCh_iff_lt a.toList b.toList

theorem strLtGo_eq_false_iff_le (a b : String) : strLtGo b a = false ↔ a ≤ b := by
  rw [← not_lt, ← strLtGo_iff_lt b a]
  simp

theorem swapGtStr_eq_false_iff_le (a b : String) : swapGtStr a b = false ↔ a ≤ b := by
  rw [swapGtStr, strLtGo_eq_false_iff_le]

theorem swapGtStr_eq_true_iff_lt (a b : String) : swapGtStr a b = true ↔ b < a := by
  rw [swapGtStr, strLtGo_iff_lt]

theorem innerPass_swapGtStr_min (x : String) (l : List String) :
    ∀ y ∈ x :: l, (innerPass swapGtStr x l).1 ≤ y := by
  induction l generalizing x with
  | nil =>
    intro y hy
    have hyx : y = x := by simpa using hy
    subst hyx
    simp [innerPass]
  | cons z zs ih =>
    intro y hy
    cases hs : swapGtStr x z with
    | true =>
      have hzx : z < x := (swapGtStr_eq_true_iff_lt x z).mp hs
      rw [innerPass_cons_pos swapGtStr x z zs hs]
      rcases List.mem_cons.mp hy with hyx | hy2
      · subst hyx
        exact le_trans (ih z z (List.mem_cons_self z zs)) (le_of_lt hzx)
      · exact ih z y hy2
    | false =>
      have hxz : x ≤ z := (swapGtStr_eq_false_iff_le x z).mp hs
      rw [innerPass_cons_neg swapGtStr x z zs hs]
      rcases List.mem_cons.mp hy with hyx | hy2
      · subst hyx
        exact ih y y (List.mem_cons_self y zs)
      · rcases List.mem_cons.mp hy2 with hyz | hy3
        · subst hyz
          exact le_trans (ih x x (List.mem_cons_self x zs)) hxz
        · exact ih x y (List.mem_cons.mpr (Or.inr hy3))

theorem exchangeSortAux_swapGtStr_sorted :
    ∀ n (l : List String), l.length ≤ n →
      List.Sorted (fun a b => a ≤ b) (exchangeSortAux swapGtStr n l) := by
  intro n
  induction n with
  | zero =>
    intro l hl
    have : l = [] := List.length_eq_zero.mp (Nat.le_zero.mp hl)
    subst this; simp [exchangeSortAux]
  | succ n ih =>
    intro l hl
    match l with
    | [] => simp [exchangeSortAux]
    | x :: xs =>
      simp only [exchangeSortAux, List.sorted_cons]
      have hlen : (innerPass swapGtStr x xs).2.length ≤ n := by
        rw [innerPass_length]; simpa using hl
      refine ⟨fun b hb => ?_, ih _ hlen⟩
      have hb2 : b ∈ (innerPass swapGtStr x xs).2 :=
        (exchangeSortAux_perm swapGtStr n _ hlen).mem_iff.mp hb
      have hb3 : b ∈ x :: xs :=
        (innerPass_perm swapGtStr x xs).mem_iff.mp (List.mem_cons.mpr (Or.inr hb2))
      exact innerPass_swapGtStr_min x xs b hb3

theorem exchangeSort_swapGtStr_sorted (l : List String) :
    List.Sorted (fun a b => a ≤ b) (exchangeSort swapGtStr l) :=
  exchangeSortAux_swapGtStr_sorted l.length l (Nat.le_refl _)

theorem sortBranches_perm (l : List String) : (sortBranches l).Perm l := by
  have h1 := exchangeSort_perm swapPrio (l.filter isPriorityBranch)
  have h2 := exchangeSort_perm swapGtStr (l.filter (fun b => !isPriorityBranch b))
  exact (List.Perm.append h1 h2).trans (List.filter_append_perm _ l)

theorem main_le_master : ("main" : String) ≤ "master" := by
  have h1 : strLtGo "main" "master" = true := by decide
  exact le_of_lt ((strLtGo_iff_lt _ _).mp h1)

theorem nodup_priority_shape (l : List String) (hn : l.Nodup)
    (hp : ∀ x ∈ l, x = "main" ∨ x = "master") :
    l = [] ∨ l = ["main"] ∨ l = ["master"] ∨ l = ["main", "master"] ∨ l = ["master", "main"] := by
  rcases l with _ | ⟨a, _ | ⟨b, _ | ⟨c, t⟩⟩⟩
  · exact Or.inl rfl
  · rcases hp a (by simp) with rfl | rfl
    · exact Or.inr (Or.inl rfl)
    · exact Or.inr (Or.inr (Or.inl rfl))
  · rcases hp a (by simp) with rfl | rfl <;> rcases hp b (by simp) with rfl | rfl <;>
      simp_all
  · exfalso
    rcases hp a (by simp) with rfl | rfl <;> rcases hp b (by simp) with rfl | rfl <;>
      rcases hp c (by simp) with rfl | rfl <;> simp_all

theorem exchangeSort_swapPrio_sorted (l : List String) (hn : l.Nodup)
    (hp : ∀ x ∈ l, x = "main" ∨ x = "master") :
    List.Sorted (fun a b => a ≤ b) (exchangeSort swapPrio l) := by
  rcases nodup_priority_shape l hn hp with rfl | rfl | rfl | rfl | rfl
  · simp [exchangeSort, exchangeSortAux]
  · simp [exchangeSort, exchangeSortAux, innerPass]
  · simp [exchangeSort, exchangeSortAux, innerPass]
  · have he : exchangeSort swapPrio ["main", "master"] = ["main", "master"] := by decide
    rw [he]
    refine List.sorted_cons.mpr ⟨fun b hb => ?_, List.sorted_singleton _⟩
    rw [List.mem_singleton] at hb
    subst hb
    exact main_le_master
  · have he : exchangeSort swapPrio ["master", "main"] = ["main", "master"] := by decide
    rw [he]
    refine List.sorted_cons.mpr ⟨fun b hb => ?_, List.sorted_singleton _⟩
    rw [List.mem_singleton] at hb
    subst hb
    exact main_le_master

/-! ## Helper lemmas: `ListBranches` membership -/

theorem processBranchLine_of_blank (raw : String) (h : trimGo raw = "") :
    processBranchLine raw = "" := by
  simp only [processBranchLine, h]
  rfl

theorem mem_collectBranches {lines : List String} {raw : String} (hmem : raw ∈ lines)
    (hne : processBranchLine raw ≠ "")
    (hhead : containsGo (processBranchLine raw) "HEAD" = false) :
    processBranchLine raw ∈ collectBranches lines := by
  have htr : trimGo raw ≠ "" := fun h => hne (processBranchLine_of_blank raw h)
  rw [collectBranches, List.mem_filterMap]
  refine ⟨raw, hmem, ?_⟩
  simp [htr, hhead, hne]

theorem mem_listBranchesLines {lines : List String} {x : String}
    (hx : x ∈ collectBranches lines) : x ∈ listBranchesLines lines := by
  rw [listBranchesLines]
  rw [(sortBranches_perm _).mem_iff, mem_dedupFirstSeen]
  exact hx

/-! ## Helper lemmas: `parseWorktrees` -/

theorem parseWorktreeLines_nil (cur : Worktree) :
    parseWorktreeLines [] cur = if cur.Path ≠ "" then [cur] else [] := rfl

theorem parseWorktreeLines_blank_flush (raw : String) (rest : List String) (cur : Worktree)
    (h1 : trimGo raw = "") (hc : cur.Path ≠ "") :
    parseWorktreeLines (raw :: rest) cur = cur :: parseWorktreeLines rest {} := by
  simp [parseWorktreeLines, h1, hc]

theorem parseWorktreeLines_blank_keep (raw : String) (rest : List String) (cur : Worktree)
    (h1 : trimGo raw = "") (hc : cur.Path = "") :
    parseWorktreeLines (raw :: rest) cur = parseWorktreeLines rest cur := by
  simp [parseWorktreeLines, h1, hc]

theorem parseWorktreeLines_cons_noparts (raw : String) (rest : List String) (cur : Worktree)
    (h1 : ¬ trimGo raw = "") (hb : breakAtChar ' ' (trimGo raw).toList = none) :
    parseWorktreeLines (raw :: rest) cur = parseWorktreeLines rest cur := by
  have hb2 : breakAtChar ' ' (trimGo raw).data = none := hb
  simp [parseWorktreeLines, h1, hb2]

theorem parseWorktreeLines_cons_line (raw : String) (rest : List String) (cur : Worktree)
    (p : List Char × List Char) (h1 : ¬ trimGo raw = "")
    (hb : breakAtChar ' ' (trimGo raw).toList = some p) :
    parseWorktreeLines (raw :: rest) cur =
      (if String.mk p.1 = "worktree" then
        parseWorktreeLines rest { cur with Path := String.mk p.2 }
      else if String.mk p.1 = "branch" then
        parseWorktreeLines rest { cur with Branch := trimPrefixGo (String.mk p.2) "refs/heads/" }
      else if String.mk p.1 = "HEAD" then
        parseWorktreeLines rest { cur with Commit := String.mk p.2 }
      else parseWorktreeLines rest cur) := by
  have hb2 : breakAtChar ' ' (trimGo raw).data = some p := hb
  simp [parseWorktreeLines, h1, hb2]

theorem parseWorktreeLines_path_ne (lines : List String) :
    ∀ cur wt, wt ∈ parseWorktreeLines lines cur → wt.Path ≠ "" := by
  induction lines with
  | nil =>
    intro cur wt h
    rw [parseWorktreeLines_nil] at h
    by_cases hc : cur.Path ≠ ""
    · rw [if_pos hc, List.mem_singleton] at h
      exact h ▸ hc
    · rw [if_neg hc] at h
      exact absurd h (List.not_mem_nil wt)
  | cons raw rest ih =>
    intro cur wt h
    by_cases h1 : trimGo raw = ""
    · by_cases hc : cur.Path = ""
      · rw [parseWorktreeLines_blank_keep raw rest cur h1 hc] at h
        exact ih _ wt h
      · rw [parseWorktreeLines_blank_flush raw rest cur h1 hc] at h
        rcases List.mem_cons.mp h with heq | h2
        · exact heq ▸ hc
        · exact ih _ wt h2
    · rcases hb : breakAtChar ' ' (trimGo raw).toList with _ | p
      · rw [parseWorktreeLines_cons_noparts raw rest cur h1 hb] at h
        exact ih _ wt h
      · rw [parseWorktreeLines_cons_line raw rest cur p h1 hb] at h
        by_cases hk1 : String.mk p.1 = "worktree"
        · rw [if_pos hk1] at h; exact ih _ wt h
        · rw [if_neg hk1] at h
          by_cases hk2 : String.mk p.1 = "branch"
          · rw [if_pos hk2] at h; exact ih _ wt h
          · rw [if_neg hk2] at h
            by_cases hk3 : String.mk p.1 = "HEAD"
            · rw [if_pos hk3] at h; exact ih _ wt h
            · rw [if_neg hk3] at h; exact ih _ wt h

/-! ## Claim C2 — which lines `ListBranches` discards -/

/-- C2, counterexample: the claim says only the `HEAD ->` pointer line
and blank lines are discarded, but `ListBranches` drops every line
containing the substring `HEAD` anywhere: the non-blank line
`  fix-HEAD` (not a pointer line — it does not even contain `HEAD ->`)
is absent from the result. -/
theorem c2_discard_counterexample :
    listBranchesLines ["  fix-HEAD"] = []
    ∧ trimGo "  fix-HEAD" ≠ ""
    ∧ processBranchLine "  fix-HEAD" = "fix-HEAD"
    ∧ containsGo "fix-HEAD" "HEAD ->" = false := by
  refine ⟨by decide, by decide, by decide, by decide⟩

/-- C2, amended: `ListBranches` discards blank lines and every line
that (after stripping the `* ` marker and the `remotes/origin/`
prefix) contains the substring `HEAD` or becomes empty; every other
line appears, after stripping, in the returned list. -/
theorem c2_discard_amended (lines : List String) (raw : String) (hmem : raw ∈ lines)
    (hne : processBranchLine raw ≠ "")
    (hhead : containsGo (processBranchLine raw) "HEAD" = false) :
    processBranchLine raw ∈ listBranchesLines lines :=
  mem_listBranchesLines (mem_collectBranches hmem hne hhead)

/-- C2, witness for the amended theorem at a concrete line. -/
theorem c2_discard_amended_witness :
    processBranchLine "  feature/x" ∈ listBranchesLines ["* main", "  feature/x"] :=
  c2_discard_amended ["* main", "  feature/x"] "  feature/x" (by decide) (by decide) (by decide)

/-! ## Claim C4 — `ListBranches` deduplicates and sorts -/

/-- C4: for every list of branch lines the result is the collected
branches deduplicated (no duplicates, first-seen order preserved as a
sublist of the input, same membership) and arranged as a sorted
`main`/`master` segment followed by the other branches in ascending
case-sensitive lexicographic order; on the four sample lines the
result is exactly `["main", "feature/x"]`. -/
theorem c4_dedup_sort :
    (∀ lines : List String, listBranchesSpecProp lines)
    ∧ listBranchesLines
        ["* main", "  feature/x", "  remotes/origin/feature/x",
         "  remotes/origin/HEAD -> origin/main"] = ["main", "feature/x"] := by
  constructor
  · intro lines
    refine ⟨⟨dedupFirstSeen_nodup _, dedupFirstSeen_sublist _,
             fun x => mem_dedupFirstSeen _ x⟩, sortBranches_perm _, ?_⟩
    refine ⟨exchangeSort swapPrio ((dedupFirstSeen (collectBranches lines)).filter
              isPriorityBranch),
            exchangeSort swapGtStr ((dedupFirstSeen (collectBranches lines)).filter
              (fun b => !isPriorityBranch b)), rfl, ?_, ?_, ?_, ?_⟩
    · intro x hx
      have hx2 := (exchangeSort_perm swapPrio _).mem_iff.mp hx
      have hx3 := List.mem_filter.mp hx2
      simpa [isPriorityBranch] using hx3.2
    · exact exchangeSort_swapPrio_sorted _
        ((dedupFirstSeen_nodup _).filter _)
        (fun x hx => by simpa [isPriorityBranch] using (List.mem_filter.mp hx).2)
    · intro x hx
      have hx2 := (exchangeSort_perm swapGtStr _).mem_iff.mp hx
      have hx3 := List.mem_filter.mp hx2
      simpa [isPriorityBranch] using hx3.2
    · exact exchangeSort_swapGtStr_sorted _
  · decide

/-- C4, witness at a concrete line list. -/
theorem c4_dedup_sort_witness : listBranchesSpecProp ["* main", "  zeta", "  alpha"] :=
  c4_dedup_sort.1 ["* main", "  zeta", "  alpha"]

/-! ## Claim C8 — `parseWorktrees` invariants -/

/-- C8: `parseWorktrees` never emits a record with an empty path, and
on porcelain output with two blocks, the second lacking a `branch`
line, it yields exactly two records with the detached one's `Branch`
empty. -/
theorem c8_parse_invariants :
    (∀ output : String, ∀ wt ∈ parseWorktrees output, wt.Path ≠ "")
    ∧ parseWorktrees
        "worktree /repo\nHEAD abc1234def\nbranch refs/heads/main\n\nworktree /wt2\nHEAD 987654fed\n"
        = [{ Path := "/repo", Branch := "main", Commit := "abc1234def" },
           { Path := "/wt2", Branch := "", Commit := "987654fed" }] :=
  ⟨fun _ wt h => parseWorktreeLines_path_ne _ _ wt h, by decide⟩

/-- C8, witness: the no-empty-path invariant applied at a concrete
output. -/
theorem c8_parse_invariants_witness :
    ({ Path := "/a", Branch := "", Commit := "" } : Worktree).Path ≠ "" :=
  c8_parse_invariants.1 "worktree /a\n"
    { Path := "/a", Branch := "", Commit := "" } (by decide)

/-! ## Claim C3 — the `../feature-baz` suggestion example -/

/-- C3, counterexample: on a listing whose entries are exactly
`../feature-foo` and `../feature-bar`, `SuggestPaths` skips the first
entry as the primary worktree, so the `../{branch}` template is
supported once: `../feature-baz` is suggested with count 1 and no
suggestion cites count 2. -/
theorem c3_suggest_count_counterexample :
    suggestPathsWith
        [{ Path := "../feature-foo", Branch := "feature-foo", Commit := "" },
         { Path := "../feature-bar", Branch := "feature-bar", Commit := "" }]
        "" "feature-baz"
      = [{ Path := "../feature-baz", Description := "Learned pattern (1 similar)",
           IsCustom := false },
         { Path := "../worktrees/feature-baz",
           Description := "Organized in worktrees folder", IsCustom := false },
         customPathSentinel]
    ∧ ∀ s ∈ suggestPathsWith
        [{ Path := "../feature-foo", Branch := "feature-foo", Commit := "" },
         { Path := "../feature-bar", Branch := "feature-bar", Commit := "" }]
        "" "feature-baz",
        s.Description ≠ "Learned pattern (2 similar)" := by
  refine ⟨by decide, by decide⟩

/-- C3, amended: when the listing carries the primary worktree first
and the worktrees `../feature-foo` and `../feature-bar` after it,
`SuggestPaths` for `feature-baz` suggests `../feature-baz` first, with
the description citing count 2. -/
theorem c3_suggest_count_amended :
    suggestPathsWith
        [{ Path := "/repo", Branch := "main", Commit := "" },
         { Path := "../feature-foo", Branch := "feature-foo", Commit := "" },
         { Path := "../feature-bar", Branch := "feature-bar", Commit := "" }]
        "" "feature-baz"
      = [{ Path := "../feature-baz", Description := "Learned pattern (2 similar)",
           IsCustom := false },
         { Path := "../worktrees/feature-baz",
           Description := "Organized in worktrees folder", IsCustom := false },
         customPathSentinel] := by
  decide

/-! ## Claim C7 — the custom sentinel is last and unique -/

theorem getDefaultSuggestions_not_custom (branch repoName : String) :
    ∀ s ∈ getDefaultSuggestions branch repoName, s.IsCustom = false := by
  intro s hs
  rw [getDefaultSuggestions] at hs
  rcases List.mem_append.mp hs with h | h
  · rcases List.mem_cons.mp h with rfl | h2
    · rfl
    · rcases List.mem_singleton.mp h2 with rfl
      rfl
  · by_cases hr : repoName ≠ ""
    · rw [if_pos hr] at h
      rcases List.mem_singleton.mp h with rfl
      rfl
    · rw [if_neg hr] at h
      exact absurd h (List.not_mem_nil s)

theorem foldl_addLearnedPath_not_custom (branch : String) (pats : List pathPattern) :
    ∀ acc : List PathSuggestion × List String, (∀ s ∈ acc.1, s.IsCustom = false) →
      ∀ s ∈ (pats.foldl (addLearnedPath branch) acc).1, s.IsCustom = false := by
  induction pats with
  | nil => intro acc hacc s hs; exact hacc s hs
  | cons p ps ih =>
    intro acc hacc s hs
    refine ih _ (fun t ht => ?_) s hs
    rw [addLearnedPath] at ht
    split at ht
    · rcases List.mem_append.mp ht with h | h
      · exact hacc t h
      · rcases List.mem_singleton.mp h with rfl
        rfl
    · exact hacc t ht

theorem foldl_addDefaultPath_not_custom (sugs : List PathSuggestion) :
    ∀ acc : List PathSuggestion × List String, (∀ s ∈ acc.1, s.IsCustom = false) →
      (∀ s ∈ sugs, s.IsCustom = false) →
      ∀ s ∈ (sugs.foldl addDefaultPath acc).1, s.IsCustom = false := by
  induction sugs with
  | nil => intro acc hacc _ s hs; exact hacc s hs
  | cons p ps ih =>
    intro acc hacc hsug s hs
    refine ih _ (fun t ht => ?_) (fun t ht => hsug t (List.mem_cons.mpr (Or.inr ht))) s hs
    rw [addDefaultPath] at ht
    split at ht
    · rcases List.mem_append.mp ht with h | h
      · exact hacc t h
      · rcases List.mem_singleton.mp h with rfl
        exact hsug t (List.mem_cons_self t ps)
    · exact hacc t ht

theorem suggestPathsFront_not_custom (worktrees : List Worktree) (repoName branch : String) :
    ∀ s ∈ suggestPathsFront worktrees repoName branch, s.IsCustom = false := by
  have hlearned : ∀ s ∈ (suggestPathsLearned worktrees branch).1, s.IsCustom = false := by
    rw [suggestPathsLearned]
    split
    · exact foldl_addLearnedPath_not_custom branch _ ([], []) (by simp)
    · simp
  rw [suggestPathsFront]
  split
  · exact foldl_addDefaultPath_not_custom _ _ hlearned
      (getDefaultSuggestions_not_custom branch repoName)
  · exact hlearned

theorem foldl_addLearnedPrefix_not_custom (pcs : List (String × Nat)) :
    ∀ acc : List BranchNameSuggestion × List String, (∀ s ∈ acc.1, s.IsCustom = false) →
      ∀ s ∈ (pcs.foldl addLearnedPrefix acc).1, s.IsCustom = false := by
  induction pcs with
  | nil => intro acc hacc s hs; exact hacc s hs
  | cons p ps ih =>
    intro acc hacc s hs
    refine ih _ (fun t ht => ?_) s hs
    rw [addLearnedPrefix] at ht
    split at ht
    · rcases List.mem_append.mp ht with h | h
      · exact hacc t h
      · rcases List.mem_singleton.mp h with rfl
        rfl
    · exact hacc t ht

theorem foldl_addCommonPrefix_not_custom (cps : List (String × String)) :
    ∀ acc : List BranchNameSuggestion × List String, (∀ s ∈ acc.1, s.IsCustom = false) →
      ∀ s ∈ (cps.foldl addCommonPrefix acc).1, s.IsCustom = false := by
  induction cps with
  | nil => intro acc hacc s hs; exact hacc s hs
  | cons p ps ih =>
    intro acc hacc s hs
    refine ih _ (fun t ht => ?_) s hs
    rw [addCommonPrefix] at ht
    split at ht
    · rcases List.mem_append.mp ht with h | h
      · exact hacc t h
      · rcases List.mem_singleton.mp h with rfl
        rfl
    · exact hacc t ht

theorem suggestBranchNamesFront_not_custom (branches : List String) :
    ∀ s ∈ suggestBranchNamesFront branches, s.IsCustom = false := by
  rw [suggestBranchNamesFront]
  exact foldl_addCommonPrefix_not_custom _ _
    (foldl_addLearnedPrefix_not_custom _ ([], []) (by simp))

/-- C7: every path-suggestion list and every branch-name-suggestion
list is a run of non-custom entries followed by exactly one custom
sentinel (whose path/name is empty), which is the last element. -/
theorem c7_custom_sentinel_last :
    (∀ (worktrees : List Worktree) (repoName branch : String),
      suggestPathsWith worktrees repoName branch
          = suggestPathsFront worktrees repoName branch ++ [customPathSentinel]
        ∧ customPathSentinel.IsCustom = true ∧ customPathSentinel.Path = ""
        ∧ ∀ s ∈ suggestPathsFront worktrees repoName branch, s.IsCustom = false)
    ∧ (∀ branches : List String,
      suggestBranchNamesWith branches
          = suggestBranchNamesFront branches ++ [customNameSentinel]
        ∧ customNameSentinel.IsCustom = true ∧ customNameSentinel.Name = ""
        ∧ ∀ s ∈ suggestBranchNamesFront branches, s.IsCustom = false) :=
  ⟨fun worktrees repoName branch =>
    ⟨rfl, rfl, rfl, suggestPathsFront_not_custom worktrees repoName branch⟩,
   fun branches => ⟨rfl, rfl, rfl, suggestBranchNamesFront_not_custom branches⟩⟩

/-- C7, witness at concrete inputs. -/
theorem c7_custom_sentinel_last_witness :
    suggestPathsWith [] "" "x" = suggestPathsFront [] "" "x" ++ [customPathSentinel]
    ∧ suggestBranchNamesWith ["a/b"]
        = suggestBranchNamesFront ["a/b"] ++ [customNameSentinel] :=
  ⟨(c7_custom_sentinel_last.1 [] "" "x").1, (c7_custom_sentinel_last.2 ["a/b"]).1⟩

/-! ## Helper lemmas: the prefix tally of `analyzeBranchPrefixes` -/

theorem lookupTally_nil (k : String) : lookupTally [] k = 0 := rfl

theorem lookupTally_cons (p : String × Nat) (rest : List (String × Nat)) (k : String) :
    lookupTally (p :: rest) k = if p.1 = k then p.2 else lookupTally rest k := by
  simp only [lookupTally]
  by_cases hpk : p.1 = k
  · rw [List.find?_cons_of_pos _ (by simpa using hpk), if_pos hpk]
  · rw [List.find?_cons_of_neg _ (by simpa using hpk), if_neg hpk]

theorem bumpCount_pos (m : List (String × Nat)) (k : String)
    (h : (m.any fun p => p.1 = k) = true) :
    bumpCount m k = m.map (fun p => if p.1 = k then (p.1, p.2 + 1) else p) := by
  rw [bumpCount, if_pos h]

theorem bumpCount_neg (m : List (String × Nat)) (k : String)
    (h : (m.any fun p => p.1 = k) = false) :
    bumpCount m k = m ++ [(k, 1)] := by
  rw [bumpCount, if_neg (by simp [h])]

theorem lookupTally_map_bump (m : List (String × Nat)) (k : String) :
    (m.any fun p => p.1 = k) = true →
    lookupTally (m.map (fun p => if p.1 = k then (p.1, p.2 + 1) else p)) k
      = lookupTally m k + 1 := by
  induction m with
  | nil => intro h; simp at h
  | cons p rest ih =>
    intro h
    by_cases hpk : p.1 = k
    · rw [List.map_cons, if_pos hpk, lookupTally_cons, lookupTally_cons, if_pos hpk, if_pos hpk]
    · have h2 : (rest.any fun p => p.1 = k) = true := by
        rcases List.any_eq_true.mp h with ⟨q, hq, hqk⟩
        rcases List.mem_cons.mp hq with rfl | hq2
        · exact absurd (by simpa using hqk) hpk
        · exact List.any_eq_true.mpr ⟨q, hq2, hqk⟩
      rw [List.map_cons, if_neg hpk, lookupTally_cons, lookupTally_cons]
      simp only [if_neg hpk]
      exact ih h2

theorem lookupTally_append_new_none (m : List (String × Nat)) (k : String)
    (h : (m.any fun p => p.1 = k) = false) :
    lookupTally (m ++ [(k, 1)]) k = 1 ∧ lookupTally m k = 0 := by
  induction m with
  | nil => constructor <;> simp [lookupTally_cons, lookupTally_nil]
  | cons p rest ih =>
    have hpk : ¬ p.1 = k := by
      intro hc
      have := List.any_eq_false.mp h p (List.mem_cons_self p rest)
      simp [hc] at this
    have h2 : (rest.any fun p => p.1 = k) = false := by
      rw [List.any_eq_false]
      intro q hq
      exact List.any_eq_false.mp h q (List.mem_cons.mpr (Or.inr hq))
    rw [List.cons_append, lookupTally_cons, lookupTally_cons, if_neg hpk, if_neg hpk]
    exact ih h2

theorem lookupTally_bumpCount_self (m : List (String × Nat)) (k : String) :
    lookupTally (bumpCount m k) k = lookupTally m k + 1 := by
  cases hany : (m.any fun p => p.1 = k) with
  | true => rw [bumpCount_pos m k hany]; exact lookupTally_map_bump m k hany
  | false =>
    rw [bumpCount_neg m k hany]
    have h := lookupTally_append_new_none m k hany
    rw [h.1, h.2]

theorem lookupTally_map_bump_other (m : List (String × Nat)) (k k' : String)
    (hne : k' ≠ k) :
    lookupTally (m.map (fun p => if p.1 = k then (p.1, p.2 + 1) else p)) k'
      = lookupTally m k' := by
  induction m with
  | nil => rfl
  | cons p rest ih =>
    by_cases hpk : p.1 = k
    · rw [List.map_cons, if_pos hpk, lookupTally_cons, lookupTally_cons]
      have hpk' : ¬ p.1 = k' := fun hc => hne (hpk ▸ hc ▸ rfl)
      rw [if_neg hpk', if_neg hpk', ih]
    · rw [List.map_cons, if_neg hpk, lookupTally_cons, lookupTally_cons]
      by_cases hpk' : p.1 = k'
      · rw [if_pos hpk', if_pos hpk']
      · rw [if_neg hpk', if_neg hpk', ih]

theorem lookupTally_append_other (m : List (String × Nat)) (k k' : String)
    (hne : k' ≠ k) : lookupTally (m ++ [(k, 1)]) k' = lookupTally m k' := by
  induction m with
  | nil =>
    rw [List.nil_append, lookupTally_cons, lookupTally_nil]
    exact if_neg (fun hc : k = k' => hne hc.symm)
  | cons p rest ih =>
    rw [List.cons_append, lookupTally_cons, lookupTally_cons]
    by_cases hpk' : p.1 = k'
    · rw [if_pos hpk', if_pos hpk']
    · rw [if_neg hpk', if_neg hpk', ih]

theorem lookupTally_bumpCount_other (m : List (String × Nat)) (k k' : String)
    (hne : k' ≠ k) : lookupTally (bumpCount m k) k' = lookupTally m k' := by
  cases hany : (m.any fun p => p.1 = k) with
  | true => rw [bumpCount_pos m k hany]; exact lookupTally_map_bump_other m k k' hne
  | false => rw [bumpCount_neg m k hany]; exact lookupTally_append_other m k k' hne

theorem tallyKeys_bumpCount_nodup (m : List (String × Nat)) (k : String)
    (h : (tallyKeys m).Nodup) : (tallyKeys (bumpCount m k)).Nodup := by
  cases hany : (m.any fun p => p.1 = k) with
  | true =>
    rw [bumpCount_pos m k hany]
    have hkeys : tallyKeys (m.map (fun p => if p.1 = k then (p.1, p.2 + 1) else p))
        = tallyKeys m := by
      rw [tallyKeys, tallyKeys, List.map_map]
      apply List.map_congr_left
      intro p _
      by_cases hpk : p.1 = k
      · simp [hpk]
      · simp [hpk]
    rw [hkeys]
    exact h
  | false =>
    rw [bumpCount_neg m k hany]
    have hknot : k ∉ tallyKeys m := by
      intro hc
      rcases List.mem_map.mp hc with ⟨p, hp, hpk⟩
      have := List.any_eq_false.mp hany p hp
      simp [hpk] at this
    rw [tallyKeys, List.map_append]
    rw [List.nodup_append]
    refine ⟨h, by simp, ?_⟩
    intro a ha hb
    simp only [List.map_cons, List.map_nil, List.mem_singleton] at hb
    exact hknot (hb ▸ ha)

theorem bumpCount_pos_values (m : List (String × Nat)) (k : String)
    (h : ∀ e ∈ m, 0 < e.2) : ∀ e ∈ bumpCount m k, 0 < e.2 := by
  intro e he
  cases hany : (m.any fun p => p.1 = k) with
  | true =>
    rw [bumpCount_pos m k hany] at he
    rcases List.mem_map.mp he with ⟨p, hp, hpe⟩
    by_cases hpk : p.1 = k
    · rw [if_pos hpk] at hpe
      rw [← hpe]
      simp
    · rw [if_neg hpk] at hpe
      exact hpe ▸ h p hp
  | false =>
    rw [bumpCount_neg m k hany] at he
    rcases List.mem_append.mp he with h2 | h2
    · exact h e h2
    · rcases List.mem_singleton.mp h2 with rfl
      simp

theorem mem_tally_iff_lookup (m : List (String × Nat)) (hkeys : (tallyKeys m).Nodup)
    (k : String) (n : Nat) :
    (k, n) ∈ m ↔ k ∈ tallyKeys m ∧ lookupTally m k = n := by
  induction m with
  | nil => simp [tallyKeys, lookupTally_nil]
  | cons p rest ih =>
    have hkr : (tallyKeys rest).Nodup := by
      rw [tallyKeys, List.map_cons, List.nodup_cons] at hkeys
      exact hkeys.2
    have hpk_notin : p.1 ∉ tallyKeys rest := by
      rw [tallyKeys, List.map_cons, List.nodup_cons] at hkeys
      exact hkeys.1
    rw [lookupTally_cons]
    constructor
    · intro hmem
      rcases List.mem_cons.mp hmem with heq | hmem2
      · subst heq
        refine ⟨by simp [tallyKeys], by simp⟩
      · have hk : k ∈ tallyKeys rest := List.mem_map.mpr ⟨(k, n), hmem2, rfl⟩
        have hne : ¬ p.1 = k := fun hc => hpk_notin (hc ▸ hk)
        rw [if_neg hne]
        refine ⟨?_, ((ih hkr).mp hmem2).2⟩
        rw [tallyKeys, List.map_cons]
        exact List.mem_cons.mpr (Or.inr hk)
    · rintro ⟨hk, hl⟩
      by_cases hpk : p.1 = k
      · rw [if_pos hpk] at hl
        subst hl
        rw [← hpk]
        exact List.mem_cons.mpr (Or.inl Prod.mk.eta)
      · rw [if_neg hpk] at hl
        have hk2 : k ∈ tallyKeys rest := by
          rw [tallyKeys, List.map_cons, List.mem_cons] at hk
          rcases hk with hk | hk
          · exact absurd hk.symm hpk
          · exact hk
        exact List.mem_cons.mpr (Or.inr ((ih hkr).mpr ⟨hk2, hl⟩))

theorem mem_tallyKeys_of_pos (m : List (String × Nat)) (hval : ∀ e ∈ m, 0 < e.2)
    (k : String) (h : 0 < lookupTally m k) : k ∈ tallyKeys m := by
  induction m with
  | nil => rw [lookupTally_nil] at h; exact absurd h (by simp)
  | cons p rest ih =>
    rw [lookupTally_cons] at h
    by_cases hpk : p.1 = k
    · rw [tallyKeys, List.map_cons]
      exact List.mem_cons.mpr (Or.inl hpk.symm)
    · rw [if_neg hpk] at h
      have := ih (fun e he => hval e (List.mem_cons.mpr (Or.inr he))) h
      rw [tallyKeys, List.map_cons]
      exact List.mem_cons.mpr (Or.inr this)

theorem branchPrefixStep_skip (m : List (String × Nat)) (b : String)
    (h : b = "main" ∨ b = "master") : branchPrefixStep m b = m := by
  rw [branchPrefixStep, if_pos h]

theorem branchPrefixStep_none (m : List (String × Nat)) (b : String)
    (h1 : ¬(b = "main" ∨ b = "master")) (h2 : branchPrefixOf b = none) :
    branchPrefixStep m b = m := by
  rw [branchPrefixStep, if_neg h1, h2]

theorem branchPrefixStep_some (m : List (String × Nat)) (b : String) (pre : String)
    (h1 : ¬(b = "main" ∨ b = "master")) (h2 : branchPrefixOf b = some pre) :
    branchPrefixStep m b = bumpCount m pre := by
  rw [branchPrefixStep, if_neg h1, h2]

theorem foldl_branchPrefixStep_lookup (bs : List String) :
    ∀ (m : List (String × Nat)) (k : String),
      lookupTally (bs.foldl branchPrefixStep m) k = lookupTally m k + countPrefixOcc k bs := by
  induction bs with
  | nil => intro m k; simp [countPrefixOcc, List.countP_nil]
  | cons b rest ih =>
    intro m k
    rw [List.foldl_cons, ih]
    have hcnt : countPrefixOcc k (b :: rest)
        = countPrefixOcc k rest
          + (if (¬(b = "main" ∨ b = "master") ∧ branchPrefixOf b = some k) then 1 else 0) := by
      rw [countPrefixOcc, countPrefixOcc, List.countP_cons]
      by_cases hcond : ¬(b = "main" ∨ b = "master") ∧ branchPrefixOf b = some k
      · rw [if_pos hcond, if_pos (by simpa using hcond)]
      · rw [if_neg hcond, if_neg (by simpa using hcond)]
    rw [hcnt]
    by_cases hmm : b = "main" ∨ b = "master"
    · rw [branchPrefixStep_skip m b hmm, if_neg (fun hc => hc.1 hmm)]
      omega
    · by_cases hex : ∃ pre, branchPrefixOf b = some pre
      · obtain ⟨pre, hpre⟩ := hex
        by_cases hprek : pre = k
        · subst hprek
          rw [branchPrefixStep_some m b pre hmm hpre, if_pos ⟨hmm, hpre⟩,
              lookupTally_bumpCount_self]
          omega
        · have hcond : ¬(¬(b = "main" ∨ b = "master") ∧ branchPrefixOf b = some k) := by
            rintro ⟨_, hcon⟩
            rw [hpre] at hcon
            exact hprek (Option.some.inj hcon)
          rw [branchPrefixStep_some m b pre hmm hpre, if_neg hcond,
              lookupTally_bumpCount_other m pre k (fun hc => hprek hc.symm)]
          omega
      · have hpre : branchPrefixOf b = none := by
          cases hbp : branchPrefixOf b with
          | none => rfl
          | some q => exact absurd ⟨q, hbp⟩ hex
        have hcond : ¬(¬(b = "main" ∨ b = "master") ∧ branchPrefixOf b = some k) := by
          rintro ⟨_, hcon⟩
          rw [hpre] at hcon
          exact Option.noConfusion hcon
        rw [branchPrefixStep_none m b hmm hpre, if_neg hcond]
        omega

theorem foldl_branchPrefixStep_wf (bs : List String) :
    ∀ m : List (String × Nat), (tallyKeys m).Nodup → (∀ e ∈ m, 0 < e.2) →
      (tallyKeys (bs.foldl branchPrefixStep m)).Nodup
      ∧ ∀ e ∈ bs.foldl branchPrefixStep m, 0 < e.2 := by
  induction bs with
  | nil => intro m h1 h2; exact ⟨h1, h2⟩
  | cons b rest ih =>
    intro m h1 h2
    rw [List.foldl_cons]
    have hstep : (tallyKeys (branchPrefixStep m b)).Nodup
        ∧ ∀ e ∈ branchPrefixStep m b, 0 < e.2 := by
      by_cases hmm : b = "main" ∨ b = "master"
      · rw [branchPrefixStep_skip m b hmm]; exact ⟨h1, h2⟩
      · by_cases hex : ∃ pre, branchPrefixOf b = some pre
        · obtain ⟨pre, hpre⟩ := hex
          rw [branchPrefixStep_some m b pre hmm hpre]
          exact ⟨tallyKeys_bumpCount_nodup m pre h1, bumpCount_pos_values m pre h2⟩
        · have hpre : branchPrefixOf b = none := by
            cases hbp : branchPrefixOf b with
            | none => rfl
            | some q => exact absurd ⟨q, hbp⟩ hex
          rw [branchPrefixStep_none m b hmm hpre]
          exact ⟨h1, h2⟩
    exact ih _ hstep.1 hstep.2

theorem mem_analyzeBranchPrefixes (bs : List String) (p : String) (n : Nat) :
    (p, n) ∈ analyzeBranchPrefixes bs ↔ 0 < n ∧ n = countPrefixOcc p bs := by
  have hwf := foldl_branchPrefixStep_wf bs [] (by simp [tallyKeys]) (by simp)
  have hlook := foldl_branchPrefixStep_lookup bs [] p
  rw [lookupTally_nil] at hlook
  rw [analyzeBranchPrefixes]
  constructor
  · intro hmem
    have h2 := (mem_tally_iff_lookup _ hwf.1 p n).mp hmem
    refine ⟨hwf.2 (p, n) hmem, ?_⟩
    rw [← h2.2, hlook]
    omega
  · rintro ⟨hn, rfl⟩
    have hl : lookupTally (bs.foldl branchPrefixStep []) p = countPrefixOcc p bs := by
      rw [hlook]; omega
    have hk : p ∈ tallyKeys (bs.foldl branchPrefixStep []) :=
      mem_tallyKeys_of_pos _ hwf.2 p (by rw [hl]; exact hn)
    exact (mem_tally_iff_lookup _ hwf.1 p _).mpr ⟨hk, hl⟩

/-! ## Helper lemmas: structure of the `SuggestBranchNames` folds -/

theorem foldl_addLearnedPrefix_eq (pcs : List (String × Nat)) :
    ∀ acc : List BranchNameSuggestion × List String,
      (pcs.map Prod.fst).Nodup → (∀ pc ∈ pcs, pc.1 ∉ acc.2) →
      pcs.foldl addLearnedPrefix acc
        = (acc.1 ++ (pcs.filter (fun pc => 2 ≤ pc.2)).map mkLearnedSuggestion,
           acc.2 ++ (pcs.filter (fun pc => 2 ≤ pc.2)).map Prod.fst) := by
  induction pcs with
  | nil => intro acc _ _; simp
  | cons pc rest ih =>
    intro acc hnd hnotin
    have hnd2 : (rest.map Prod.fst).Nodup := by
      rw [List.map_cons, List.nodup_cons] at hnd
      exact hnd.2
    have hpc_notin_rest : pc.1 ∉ rest.map Prod.fst := by
      rw [List.map_cons, List.nodup_cons] at hnd
      exact hnd.1
    rw [List.foldl_cons]
    by_cases h2 : 2 ≤ pc.2
    · have hstep : addLearnedPrefix acc pc
          = (acc.1 ++ [mkLearnedSuggestion pc], acc.2 ++ [pc.1]) := by
        rw [addLearnedPrefix, if_pos ⟨h2, hnotin pc (List.mem_cons_self pc rest)⟩]
      have hnotin2 : ∀ pc' ∈ rest, pc'.1 ∉ acc.2 ++ [pc.1] := by
        intro pc' hpc'
        rw [List.mem_append, List.mem_singleton]
        rintro (hin | heq)
        · exact hnotin pc' (List.mem_cons.mpr (Or.inr hpc')) hin
        · exact hpc_notin_rest (heq ▸ List.mem_map.mpr ⟨pc', hpc', rfl⟩)
      rw [hstep, ih _ hnd2 hnotin2, List.filter_cons_of_pos (by simpa using h2), List.map_cons,
          List.map_cons]
      simp [List.append_assoc]
    · have hstep : addLearnedPrefix acc pc = acc := by
        rw [addLearnedPrefix, if_neg (fun hc => h2 hc.1)]
      rw [hstep, ih _ hnd2 (fun pc' h' => hnotin pc' (List.mem_cons.mpr (Or.inr h'))),
          List.filter_cons_of_neg (by simpa using h2)]

theorem foldl_addCommonPrefix_eq (cps : List (String × String)) :
    ∀ acc : List BranchNameSuggestion × List String,
      (cps.map Prod.fst).Nodup →
      (cps.foldl addCommonPrefix acc).1
        = acc.1 ++ (cps.filter (fun cp => cp.1 ∉ acc.2)).map mkCommonSuggestion := by
  induction cps with
  | nil => intro acc _; simp
  | cons cp rest ih =>
    intro acc hnd
    have hnd2 : (rest.map Prod.fst).Nodup := by
      rw [List.map_cons, List.nodup_cons] at hnd
      exact hnd.2
    have hcp_notin_rest : cp.1 ∉ rest.map Prod.fst := by
      rw [List.map_cons, List.nodup_cons] at hnd
      exact hnd.1
    rw [List.foldl_cons]
    by_cases hin : cp.1 ∈ acc.2
    · have hstep : addCommonPrefix acc cp = acc := by
        rw [addCommonPrefix, if_neg (by simpa using hin)]
      rw [hstep, ih _ hnd2, List.filter_cons_of_neg (by simpa using hin)]
    · have hstep : addCommonPrefix acc cp
          = (acc.1 ++ [mkCommonSuggestion cp], acc.2 ++ [cp.1]) := by
        rw [addCommonPrefix, if_pos hin]
      rw [hstep, ih _ hnd2, List.filter_cons_of_pos (by simpa using hin), List.map_cons]
      have hfc : rest.filter (fun cp' => cp'.1 ∉ acc.2 ++ [cp.1])
          = rest.filter (fun cp' => cp'.1 ∉ acc.2) := by
        apply List.filter_congr
        intro cp' h'
        have hne : cp'.1 ≠ cp.1 :=
          fun hc => hcp_notin_rest (hc ▸ List.mem_map.mpr ⟨cp', h', rfl⟩)
        simp [List.mem_append, hne]
      rw [hfc]
      simp [List.append_assoc]

/-! ## Claim C9 — learned branch-name prefixes -/

/-- C9, counterexample: the claim tallies every non-`main`/`master`
branch containing a `/`, but the code requires the first `/` to sit at
a positive index (`idx > 0`): the branches `/a` and `/b` both contain
`/`, which per the claim would make `/` a learned prefix with count 2,
yet the tally is empty and no suggestion is named `/`. -/
theorem c9_prefix_counterexample :
    containsGo "/a" "/" = true ∧ containsGo "/b" "/" = true
    ∧ ("/a" : String) ≠ "main" ∧ ("/a" : String) ≠ "master"
    ∧ ("/b" : String) ≠ "main" ∧ ("/b" : String) ≠ "master"
    ∧ analyzeBranchPrefixes ["/a", "/b"] = []
    ∧ ∀ s ∈ suggestBranchNamesWith ["/a", "/b"], s.Name ≠ "/" := by
  decide

/-- C9, amended: `SuggestBranchNames` tallies, over every listed
branch other than `main`/`master` whose first `/` occurs at a positive
index (i.e. containing `/` but not starting with it), the prefix up to
and including that `/`; exactly the tally entries with count ≥ 2
become learned suggestions with the count in their description, the
fixed conventional prefixes not already learned follow them, and the
custom sentinel is appended last; on `[main, feature/a, feature/b,
bugfix/c]`, `feature/` is learned with count 2 while `bugfix/` appears
only as a fixed conventional entry. -/
theorem c9_learned_prefixes (bs : List String) :
    suggestBranchNamesWith bs
      = ((analyzeBranchPrefixes bs).filter (fun pc => 2 ≤ pc.2)).map mkLearnedSuggestion
        ++ (commonPrefixes.filter (fun cp =>
              cp.1 ∉ ((analyzeBranchPrefixes bs).filter (fun pc => 2 ≤ pc.2)).map Prod.fst)).map
             mkCommonSuggestion
        ++ [customNameSentinel]
    ∧ (∀ p n, (p, n) ∈ analyzeBranchPrefixes bs ↔ (0 < n ∧ n = countPrefixOcc p bs))
    ∧ suggestBranchNamesWith ["main", "feature/a", "feature/b", "bugfix/c"]
      = [{ Name := "feature/", Description := "Learned pattern (2 branches)", IsCustom := false },
         { Name := "bugfix/", Description := "Bug fix", IsCustom := false },
         { Name := "hotfix/", Description := "Urgent fix", IsCustom := false },
         { Name := "release/", Description := "Release branch", IsCustom := false },
         { Name := "refactor/", Description := "Code refactoring", IsCustom := false },
         { Name := "chore/", Description := "Maintenance task", IsCustom := false },
         customNameSentinel] := by
  refine ⟨?_, fun p n => mem_analyzeBranchPrefixes bs p n, by decide⟩
  have hkeys : ((analyzeBranchPrefixes bs).map Prod.fst).Nodup :=
    (foldl_branchPrefixStep_wf bs [] (by simp [tallyKeys]) (by simp)).1
  have hlearned := foldl_addLearnedPrefix_eq (analyzeBranchPrefixes bs) ([], []) hkeys (by simp)
  have hcommon := foldl_addCommonPrefix_eq commonPrefixes (suggestNamesLearned bs) (by decide)
  rw [suggestBranchNamesWith, suggestBranchNamesFront, hcommon, suggestNamesLearned, hlearned]
  simp [List.append_assoc]

/-- C9, witness: the structural description applied at a concrete
branch list. -/
theorem c9_learned_prefixes_witness :
    suggestBranchNamesWith ["x/a"]
      = ((analyzeBranchPrefixes ["x/a"]).filter (fun pc => 2 ≤ pc.2)).map mkLearnedSuggestion
        ++ (commonPrefixes.filter (fun cp =>
              cp.1 ∉ ((analyzeBranchPrefixes ["x/a"]).filter (fun pc => 2 ≤ pc.2)).map Prod.fst)).map
             mkCommonSuggestion
        ++ [customNameSentinel] :=
  (c9_learned_prefixes ["x/a"]).1

/-! ## Claim C1 — what returning to Menu resets -/

/-- C1, counterexample: pressing `esc` mid-wizard returns to the Menu
state and clears the error and message, but the accumulated wizard
selection fields are NOT reset: the selected branch stays
`feature-x` (nonempty) and the new-branch flag stays `true`. -/
theorem c1_reset_counterexample :
    (update env0 (.key "esc") wizardModel).1.state = ViewState.menuView
    ∧ (update env0 (.key "esc") wizardModel).1.err = none
    ∧ (update env0 (.key "esc") wizardModel).1.message = ""
    ∧ (update env0 (.key "esc") wizardModel).1.selectedBranch = "feature-x"
    ∧ (update env0 (.key "esc") wizardModel).1.selectedBranch ≠ ""
    ∧ (update env0 (.key "esc") wizardModel).1.isNewBranch = true := by
  decide

/-- C1, amended: on `q` or `esc` from any non-Menu state the machine
returns to Menu clearing the transient error and message (`esc` also
resets the menu list items, title and filter), performs no git call,
and the wizard selection fields (selected branch, base branch, chosen
prefix, new-branch flag) retain their previous values — they are never
reset. -/
theorem c1_reset_amended (env : GitEnv) (m : Model) (h : m.state ≠ ViewState.menuView) :
    ((update env (.key "q") m).1.state = ViewState.menuView
      ∧ (update env (.key "q") m).1.err = none
      ∧ (update env (.key "q") m).1.message = ""
      ∧ (update env (.key "q") m).1.selectedBranch = m.selectedBranch
      ∧ (update env (.key "q") m).1.baseBranch = m.baseBranch
      ∧ (update env (.key "q") m).1.selectedPrefix = m.selectedPrefix
      ∧ (update env (.key "q") m).1.isNewBranch = m.isNewBranch
      ∧ (update env (.key "q") m).2 = [])
    ∧ ((update env (.key "esc") m).1.state = ViewState.menuView
      ∧ (update env (.key "esc") m).1.err = none
      ∧ (update env (.key "esc") m).1.message = ""
      ∧ (update env (.key "esc") m).1.list.items = menuItems
      ∧ (update env (.key "esc") m).1.list.filteringEnabled = false
      ∧ (update env (.key "esc") m).1.selectedBranch = m.selectedBranch
      ∧ (update env (.key "esc") m).1.baseBranch = m.baseBranch
      ∧ (update env (.key "esc") m).1.selectedPrefix = m.selectedPrefix
      ∧ (update env (.key "esc") m).1.isNewBranch = m.isNewBranch
      ∧ (update env (.key "esc") m).2 = []) := by
  have hq : update env (.key "q") m
      = ({ m with state := .menuView, err := none, message := "" }, []) := by
    simp [update, h]
  have he : update env (.key "esc") m
      = (resetMenuItems { m with state := .menuView, err := none, message := "" }, []) := by
    simp [update, h]
  rw [hq, he]
  simp [resetMenuItems]

/-- C1, witness: the `q` half of the amended claim at a concrete
mid-wizard model. -/
theorem c1_reset_amended_witness :
    (update env0 (.key "q") wizardModel).1.state = ViewState.menuView
    ∧ (update env0 (.key "q") wizardModel).1.err = none
    ∧ (update env0 (.key "q") wizardModel).1.message = ""
    ∧ (update env0 (.key "q") wizardModel).1.selectedBranch = wizardModel.selectedBranch
    ∧ (update env0 (.key "q") wizardModel).1.baseBranch = wizardModel.baseBranch
    ∧ (update env0 (.key "q") wizardModel).1.selectedPrefix = wizardModel.selectedPrefix
    ∧ (update env0 (.key "q") wizardModel).1.isNewBranch = wizardModel.isNewBranch
    ∧ (update env0 (.key "q") wizardModel).2 = [] :=
  (c1_reset_amended env0 wizardModel (by decide)).1

/-! ## Claim C6 — empty submissions never reach git -/

/-- C6: submitting an empty custom path, or an empty new-branch name,
performs no git call: a validation error is recorded and the state
returns to Menu (with the menu list reset). -/
theorem c6_empty_submit_validation (env : GitEnv) (m : Model) :
    (m.state = ViewState.customPathView → m.pathInput.value = "" →
      update env (.key "enter") m
        = (resetMenuItems { m with err := some "path cannot be empty", state := .menuView }, []))
    ∧ (m.state = ViewState.newBranchNameView → m.branchNameInput.value = "" →
      update env (.key "enter") m
        = (resetMenuItems
            { m with err := some "branch name cannot be empty", state := .menuView }, [])) := by
  constructor
  · intro h1 h2
    simp [update, handleEnter, h1, h2]
  · intro h1 h2
    simp [update, handleEnter, h1, h2]

/-- C6, witness at a concrete model with an empty custom path. -/
theorem c6_empty_submit_validation_witness :
    update env0 (.key "enter") ({ state := ViewState.customPathView } : Model)
      = (resetMenuItems
          { ({ state := ViewState.customPathView } : Model) with
            err := some "path cannot be empty", state := .menuView }, []) :=
  (c6_empty_submit_validation env0 { state := ViewState.customPathView }).1 rfl rfl

/-! ## Claim C5 — the Remove flow excludes the primary worktree -/

/-- C5: with "Remove Worktree" selected on the Menu, if the listing
holds at most one worktree then no `removeWorktree` is invoked — only
the listing call happens, a "no additional worktrees" message is
recorded and the state stays at Menu; otherwise the selectable set is
exactly the worktrees after the first. -/
theorem c5_remove_primary_guard (env : GitEnv) (m : Model) (ws : List Worktree) (it : Item)
    (hstate : m.state = ViewState.menuView)
    (hit : selectedItem m.list = some it)
    (htitle : it.title = "Remove Worktree")
    (hws : env.listWorktreesRes = .ok ws) :
    (ws.length ≤ 1 →
      update env (.key "enter") m
        = ({ m with message := "No additional worktrees to remove" }, [.listWorktreesCall]))
    ∧ (1 < ws.length →
      update env (.key "enter") m
        = ({ m with worktrees := ws.drop 1,
                    list := { m.list with items := (ws.drop 1).map removeWorktreeItem,
                                          title := "Select worktree to remove (press ESC to cancel)" },
                    state := .removeView }, [.listWorktreesCall])) := by
  constructor
  · intro hle
    have hgt : ¬ (ws.length > 1) := by omega
    simp [update, handleEnter, hstate, hit, htitle, hws, hgt]
  · intro hgt
    simp [update, handleEnter, hstate, hit, htitle, hws, hgt]

/-- C5, witness: the sole-worktree case at a concrete environment and
model. -/
theorem c5_remove_primary_guard_witness :
    update envOneWorktree (.key "enter") menuRemoveModel
      = ({ menuRemoveModel with message := "No additional worktrees to remove" },
         [GitCall.listWorktreesCall]) :=
  (c5_remove_primary_guard envOneWorktree menuRemoveModel
      [{ Path := "/repo", Branch := "main", Commit := "abc" }]
      { title := "Remove Worktree", desc := "Delete an existing worktree" }
      rfl rfl rfl rfl).1 (by decide)

/-! ## Claim C10 — the `q` key never reaches the text inputs -/

theorem strHasChar_q_of_single (s : String) (hs : s.length = 1) (hq : s ≠ "q") :
    strHasChar 'q' s = false := by
  rcases List.length_eq_one.mp (show s.data.length = 1 from hs) with ⟨c, hc⟩
  have hcq : c ≠ 'q' := by
    rintro rfl
    apply hq
    calc s = String.mk s.data := rfl
      _ = String.mk ['q'] := by rw [hc]
  simp [strHasChar, String.toList, hc, hcq]

theorem strHasChar_append (c : Char) (a b : String) :
    strHasChar c (a ++ b) = (strHasChar c a || strHasChar c b) := by
  simp [strHasChar, String.toList, String.data_append, List.any_append]

theorem update_charKey_preserves_no_q (env : GitEnv) (m : Model) (s : String)
    (hs : s.length = 1)
    (h1 : strHasChar 'q' m.pathInput.value = false)
    (h2 : strHasChar 'q' m.branchNameInput.value = false) :
    strHasChar 'q' ((update env (.key s) m).1.pathInput.value) = false
    ∧ strHasChar 'q' ((update env (.key s) m).1.branchNameInput.value) = false := by
  by_cases hq : s = "q"
  · subst hq
    by_cases hm : m.state = ViewState.menuView
    · simp [update, hm, h1, h2]
    · simp [update, hm, h1, h2]
  · have hc : ¬(s = "ctrl+c" ∨ s = "q") := by
      rintro (rfl | rfl)
      · exact absurd hs (by decide)
      · exact hq rfl
    have hesc : s ≠ "esc" := by rintro rfl; exact absurd hs (by decide)
    have hent : s ≠ "enter" := by rintro rfl; exact absurd hs (by decide)
    have hsq : strHasChar 'q' s = false := strHasChar_q_of_single s hs hq
    cases hstate : m.state <;>
      simp [update, hc, hesc, hent, hstate, listUpdate, textInputUpdate, hs,
            strHasChar_append, h1, h2, hsq]

theorem stepKeys_no_q (env : GitEnv) (ks : List String) :
    ∀ m : Model, (∀ s ∈ ks, s.length = 1) →
      strHasChar 'q' m.pathInput.value = false →
      strHasChar 'q' m.branchNameInput.value = false →
      strHasChar 'q' ((stepKeys env m ks).pathInput.value) = false
      ∧ strHasChar 'q' ((stepKeys env m ks).branchNameInput.value) = false := by
  induction ks with
  | nil => intro m _ h1 h2; exact ⟨h1, h2⟩
  | cons s rest ih =>
    intro m hall h1 h2
    have hstep := update_charKey_preserves_no_q env m s (hall s (List.mem_cons_self s rest)) h1 h2
    have hrest : ∀ t ∈ rest, t.length = 1 :=
      fun t ht => hall t (List.mem_cons.mpr (Or.inr ht))
    rw [stepKeys, List.foldl_cons]
    exact ih _ hrest hstep.1 hstep.2

/-- C10: in the custom-path and new-branch-name entry states an
unmodified `q` key press is consumed globally: the machine returns to
Menu clearing the error and message, no git call happens, and the
inputs are untouched; consequently, under any sequence of single-rune
key presses the input values never come to contain the character `q`. -/
theorem c10_q_never_typed (env : GitEnv) (m : Model)
    (h : m.state = ViewState.customPathView ∨ m.state = ViewState.newBranchNameView) :
    update env (.key "q") m = ({ m with state := .menuView, err := none, message := "" }, [])
    ∧ (∀ ks : List String, (∀ s ∈ ks, s.length = 1) →
        strHasChar 'q' m.pathInput.value = false →
        strHasChar 'q' m.branchNameInput.value = false →
        strHasChar 'q' ((stepKeys env m ks).pathInput.value) = false
        ∧ strHasChar 'q' ((stepKeys env m ks).branchNameInput.value) = false) := by
  constructor
  · have hm : m.state ≠ ViewState.menuView := by
      rcases h with h | h <;> rw [h] <;> intro hc <;> exact ViewState.noConfusion hc
    simp [update, hm]
  · exact fun ks hall h1 h2 => stepKeys_no_q env ks m hall h1 h2

/-- C10, witness: the single-press half at a concrete typing model. -/
theorem c10_q_never_typed_witness :
    update env0 (.key "q") typingModel
      = ({ typingModel with state := .menuView, err := none, message := "" }, []) :=
  (c10_q_never_typed env0 typingModel (Or.inl rfl)).1

end Rakutree
